import Mathlib

/-!
Verification development for the Swift parser core (`lib/Parse/Parser.cpp`).

The C++ code is shallowly embedded: the parser's token cursor (the current
token `Tok` plus the tokens the lexer will still deliver) is a list of
tokens, the end of the list standing for the lexer's inexhaustible `eof`
supply; `PreviousLoc` and the emitted diagnostics are threaded explicitly
through a small state record.  The mutually recursive skip functions are
defined with an explicit fuel argument and proved fuel-independent above an
explicit bound, which also yields the termination bounds stated about them.
-/

set_option maxHeartbeats 1000000

namespace SwiftParse

/-- Token kinds of `tok` that this file's code inspects.  `NUM_TOKENS` is the
"lexer not yet primed" sentinel installed by the `Parser` constructor; it is
distinct from every kind the lexer can produce, including `unknown`. -/
inductive TokKind where
  | l_paren
  | r_paren
  | l_brace
  | r_brace
  | l_square
  | r_square
  | comma
  | semi
  | identifier
  | oper
  | string_literal
  | code_complete
  | eof
  | unknown
  | NUM_TOKENS
  deriving DecidableEq, Repr

/-- A token: kind, borrowed text, start location (byte-offset handle, kept as
an integer so that `getAdvancedLoc (-1)` is expressible) and length. -/
structure Token where
  kind : TokKind
  text : String
  loc : Int
  length : Nat
  deriving DecidableEq, Repr

/-- The token the cursor reports once the lexer range is exhausted. -/
def eofTok : Token := ⟨.eof, "", 0, 0⟩

/-- A fix-it attached to a diagnostic. -/
inductive FixIt where
  | insertText (loc : Int) (text : String)
  | removeRange (lo hi : Int)
  deriving DecidableEq, Repr

/-- The diagnostic descriptors this file's code emits.  `errorDiag n` stands
for an opaque `Diag<>` value passed in by a caller (e.g. `parseList`'s
`ErrorDiag` parameter). -/
inductive DiagMsg where
  | unexpected_separator (sep : String)
  | expected_separator (sep : String)
  | opening_paren
  | opening_bracket
  | opening_brace
  | errorDiag (id : Nat)
  deriving DecidableEq, Repr

/-- One emitted diagnostic: primary location, descriptor, optional fix-it. -/
structure Diagno where
  loc : Int
  msg : DiagMsg
  fix : Option FixIt
  deriving DecidableEq, Repr

/-- Parser cursor state: `toks` is the current token followed by everything
the lexer will still produce (the empty list meaning the lexer now yields
`eof` forever); `prevLoc` is `PreviousLoc`; `diags` the diagnostics emitted
so far (append-only sink). -/
structure PState where
  toks : List Token
  prevLoc : Int
  diags : List Diagno
  deriving DecidableEq, Repr

/-- The current token `Tok`. -/
def curT (s : PState) : Token := s.toks.headD eofTok

/-- Emit a diagnostic (the external diagnostics sink is append-only). -/
def diagnose (loc : Int) (m : DiagMsg) (f : Option FixIt) (s : PState) : PState :=
  { s with diags := s.diags ++ [⟨loc, m, f⟩] }

/-- The state transition of `Parser::consumeToken` at call sites where its
`assert(Tok.isNot(tok::eof))` cannot fire (every call site in this file
guards on the current kind first): advance by one token and record the
consumed token's location in `PreviousLoc`. -/
def consumeTok (s : PState) : PState :=
  { s with toks := s.toks.tail, prevLoc := (curT s).loc }

/-- `Parser::consumeIf`: consume only when the current token has kind `k`. -/
def consumeIfTok (k : TokKind) (s : PState) : PState :=
  if (curT s).kind = k then consumeTok s else s

/-- `Parser::consumeToken` itself, with the assertion modelled: consuming at
`eof` is a programming-error fault (`none`), otherwise it returns the current
token's location together with the advanced state. -/
def consumeToken (s : PState) : Option (Int × PState) :=
  if (curT s).kind = .eof then none
  else some ((curT s).loc, consumeTok s)

/-! ## Recovery engine (`skipSingle` / `skipUntil`)

The two functions are mutually recursive in the source; here they take an
explicit fuel argument, decremented at every call.  `skipSingleK`/`skipUntilK`
below are proved independent of the fuel once it reaches an explicit bound,
and the fuel-free wrappers `skipSingle`/`skipUntil` instantiate that bound. -/

mutual

/-- `Parser::skipSingle(StopAtCodeComplete)`: skip one logical unit.  The
`switch` on the current kind is rendered as an `if` cascade.  The `default`
branch calls `consumeToken`; its assertion cannot fire at the guarded call
sites (`skipUntil` only calls this under `Tok.isNot(tok::eof)`). -/
def skipSingleF : Nat → Bool → PState → PState
  | 0, _, s => s
  | fuel + 1, stop, s =>
    if (curT s).kind = .l_paren then
      consumeIfTok .r_paren (skipUntilF fuel .r_paren .unknown stop (consumeTok s))
    else if (curT s).kind = .l_brace then
      consumeIfTok .r_brace (skipUntilF fuel .r_brace .unknown stop (consumeTok s))
    else if (curT s).kind = .l_square then
      consumeIfTok .r_square (skipUntilF fuel .r_square .unknown stop (consumeTok s))
    else if (curT s).kind = .code_complete then
      if stop then s else consumeTok s
    else consumeTok s

/-- `Parser::skipUntil(T1, T2, StopAtCodeComplete)`: `tok::unknown` for both
targets is the "skip nothing" sentinel; otherwise loop `skipSingle` while the
current token is not `eof`, not either target, and (when requested) not a
code-completion marker. -/
def skipUntilF : Nat → TokKind → TokKind → Bool → PState → PState
  | 0, _, _, _, s => s
  | fuel + 1, T1, T2, stop, s =>
    if T1 = .unknown ∧ T2 = .unknown then s
    else if (curT s).kind ≠ .eof ∧ (curT s).kind ≠ T1 ∧ (curT s).kind ≠ T2 ∧
            (stop = false ∨ (curT s).kind ≠ .code_complete) then
      skipUntilF fuel T1 T2 stop (skipSingleF fuel stop s)
    else s

end

/-- Fuel bound above which `skipSingleF` is constant (proved below). -/
def singleBound (s : PState) : Nat := 2 * s.toks.length + 1

/-- Fuel bound above which `skipUntilF` is constant (proved below). -/
def untilBound (s : PState) : Nat := 2 * s.toks.length + 2

/-- `Parser::skipSingle`, fuel instantiated at its sufficient bound. -/
def skipSingle (stop : Bool) (s : PState) : PState :=
  skipSingleF (singleBound s) stop s

/-- `Parser::skipUntil`, fuel instantiated at its sufficient bound.  The
one-target overload of the missing header is `skipUntil T1 .unknown`. -/
def skipUntil (T1 T2 : TokKind) (stop : Bool) (s : PState) : PState :=
  skipUntilF (untilBound s) T1 T2 stop s

/-- The matching closer pushed for a bracket-opening token. -/
def matchingCloser : TokKind → Option TokKind
  | .l_paren => some .r_paren
  | .l_brace => some .r_brace
  | .l_square => some .r_square
  | _ => none

/-- Push the matching closer expected after `t` when `t` opens a bracket. -/
def pushIfOpener (t : Token) (stk : List TokKind) : List TokKind :=
  match matchingCloser t.kind with
  | some cl => cl :: stk
  | none => stk

/-- Bracket-nesting state machine used to state the bracket-balance claim: a
stack of expected closers.  A token matching the innermost expected closer
pops it, a bracket opener pushes its matching closer, every other token is
skipped — exactly the discipline `skipSingle` implements through recursion. -/
def runStack : List TokKind → List Token → List TokKind
  | stk, [] => stk
  | c :: stk, t :: ts =>
    if t.kind = c then runStack stk ts else runStack (pushIfOpener t (c :: stk)) ts
  | [], t :: ts => runStack (pushIfOpener t []) ts

/-! ## Primitive parsing and the list parser -/

/-- The separator's spelling, `SeparatorK == tok::comma ? "," : ";"`. -/
def sepText (SeparatorK : TokKind) : String :=
  if SeparatorK = .comma then "," else ";"

/-- `Parser::parseToken(K, TokLoc, D)`: consume an expected token, returning
(failure flag, assigned `TokLoc`, state); on mismatch emit `D` at the current
token without consuming. -/
def parseToken (K : TokKind) (D : DiagMsg) (s : PState) : Bool × Option Int × PState :=
  if (curT s).kind = K then (false, some (curT s).loc, consumeTok s)
  else (true, none, diagnose (curT s).loc D none s)

/-- The note chosen by `Parser::parseMatchingToken`'s `switch`; `none` is its
`assert(!"unknown matching token")` fault for any other kind. -/
def openingNote : TokKind → Option DiagMsg
  | .r_paren => some .opening_paren
  | .r_square => some .opening_bracket
  | .r_brace => some .opening_brace
  | _ => none

/-- `Parser::parseMatchingToken`: parse the expected closer; on failure also
emit the unmatched-opener note at `OtherLoc`.  `none` models its assertion
fault on a non-closer kind. -/
def parseMatchingToken (K : TokKind) (ErrorDiag : DiagMsg) (OtherLoc : Int)
    (s : PState) : Option (Bool × Option Int × PState) :=
  match openingNote K with
  | none => none
  | some note =>
    let r := parseToken K ErrorDiag s
    if r.1 then some (true, r.2.1, diagnose OtherLoc note none r.2.2)
    else some (false, r.2.1, r.2.2)

/-- The inner `while (Tok.is(SeparatorK))` loop at the top of `parseList`'s
iteration, written with the state's fields explicit so the recursion is
structural on the token list: each stray leading separator is diagnosed with
a removal fix-it (`diagnose(...).fixItRemove(SourceRange(Tok.getLoc()))`) and
consumed (`consumeToken`, which records the separator's location as
`PreviousLoc`). -/
def eatGo (SeparatorK : TokKind) : List Token → Int → List Diagno → PState
  | [], prevLoc, diags => ⟨[], prevLoc, diags⟩
  | t :: rest, prevLoc, diags =>
    if t.kind = SeparatorK then
      eatGo SeparatorK rest t.loc
        (diags ++ [⟨t.loc, .unexpected_separator (sepText SeparatorK),
          some (.removeRange t.loc t.loc)⟩])
    else ⟨t :: rest, prevLoc, diags⟩

/-- The stray-separator loop applied to a parser state. -/
def eatStraySeps (SeparatorK : TokKind) (s : PState) : PState :=
  eatGo SeparatorK s.toks s.prevLoc s.diags

/-- Outcome of one iteration of `parseList`'s `while (true)` loop: `break`
out to the closing `parseMatchingToken`, `return` from the whole function
(with the value of `RightLoc` if it was assigned), or continue looping. -/
inductive IterOut where
  | brk (invalid : Bool) (s : PState)
  | ret (invalid : Bool) (rightLoc : Option Int) (s : PState)
  | cont (invalid : Bool) (s : PState)
  deriving DecidableEq, Repr

/-- The part of one `parseList` loop iteration after the element callback
ran: `startLoc` is the position recorded before the callback, `inv1` the
accumulated invalid flag, `s1` the state the callback left.  Branch for
branch from the source: stop at the close kind; treat an `eof` token spelled
`")"` as the close of a string-interpolation tuple; consume a separator and
continue; otherwise diagnose a mandatory missing separator with an insertion
fix-it at the end of the previous token, and if no progress was made force it
with `skipUntil(RightK, SeparatorK)` (the `StopAtCodeComplete` argument
defaulted in the missing header is `false`), aborting at `eof` or a
code-completion marker. -/
def parseListAfterElem (RightK : TokKind) (SeparatorK : TokKind) (OptionalSep : Bool)
    (eot : Int → Int) (startLoc : Int) (inv1 : Bool) (s1 : PState) : IterOut :=
  if (curT s1).kind = RightK then .brk inv1 s1
  else if (curT s1).kind = .eof ∧ (curT s1).text = ")" then
    .ret inv1 (some (curT s1).loc) s1
  else if (curT s1).kind = SeparatorK then .cont inv1 (consumeTok s1)
  else
    let inv2 := if OptionalSep then inv1 else true
    let s2 :=
      if OptionalSep then s1
      else diagnose (curT s1).loc (.expected_separator (sepText SeparatorK))
        (some (.insertText (eot s1.prevLoc) (sepText SeparatorK))) s1
    if (curT s2).loc = startLoc then
      let s3 := skipUntil RightK SeparatorK false s2
      if (curT s3).kind = RightK then .brk inv2 s3
      else if (curT s3).kind = .eof ∨ (curT s3).kind = .code_complete then .ret true none s3
      else .cont inv2 (consumeIfTok SeparatorK s3)
    else .cont inv2 s2

/-- One iteration of `Parser::parseList`'s loop: skip stray leading
separators, record the current position, run the element callback (`cb`,
folding its failure flag into the invalid flag), then proceed as in
`parseListAfterElem`.  `eot` is the external `Lexer::getLocForEndOfToken`
service. -/
def parseListBody (RightK : TokKind) (SeparatorK : TokKind) (OptionalSep : Bool)
    (eot : Int → Int) (cb : PState → Bool × PState) (invalid : Bool) (s : PState) : IterOut :=
  let s0 := eatStraySeps SeparatorK s
  parseListAfterElem RightK SeparatorK OptionalSep eot (curT s0).loc
    (invalid || (cb s0).1) (cb s0).2

/-- The loop of `parseList` with explicit fuel (one unit per iteration); a
`brk` outcome falls through to the closing `parseMatchingToken`.  `none`
models an assertion fault. -/
def parseListF (RightK : TokKind) (LeftLoc : Int) (SeparatorK : TokKind)
    (OptionalSep : Bool) (ErrorDiag : DiagMsg) (eot : Int → Int)
    (cb : PState → Bool × PState) : Nat → Bool → PState → Option (Bool × Option Int × PState)
  | 0, _, _ => none
  | fuel + 1, invalid, s =>
    match parseListBody RightK SeparatorK OptionalSep eot cb invalid s with
    | .cont inv' s' =>
      parseListF RightK LeftLoc SeparatorK OptionalSep ErrorDiag eot cb fuel inv' s'
    | .ret inv' rl s' => some (inv', rl, s')
    | .brk inv' s' =>
      match parseMatchingToken RightK ErrorDiag LeftLoc s' with
      | none => none
      | some (f, rl, s'') => some (inv' || f, rl, s'')

/-- `Parser::parseList(RightK, LeftLoc, RightLoc, SeparatorK, OptionalSep,
ErrorDiag, callback)`.  The result is the returned invalid flag, the value
left in `RightLoc` (`none` when never assigned) and the final state; `none`
models an assertion fault (the entry `assert` on `SeparatorK`, or
`parseMatchingToken`'s, or fuel exhaustion — ruled out below for
token-consuming callbacks). -/
def parseList (RightK : TokKind) (LeftLoc : Int) (SeparatorK : TokKind)
    (OptionalSep : Bool) (ErrorDiag : DiagMsg) (eot : Int → Int)
    (cb : PState → Bool × PState) (s : PState) : Option (Bool × Option Int × PState) :=
  if ¬(SeparatorK = .comma ∨ SeparatorK = .semi) then none
  else if (curT s).kind = RightK then some (false, some (curT s).loc, consumeTok s)
  else parseListF RightK LeftLoc SeparatorK OptionalSep ErrorDiag eot cb
    (s.toks.length + 1) false s

/-- The spelling of a close delimiter kind, used to state the spec's
"eof text equals the close delimiter" claim. -/
def delimText : TokKind → String
  | .r_paren => ")"
  | .r_brace => "\x7d"
  | .r_square => "]"
  | _ => ""

/-! ## String segment splitting and tokenization -/

/-- Segment kinds of `Lexer::StringSegment`. -/
inductive SegKind where
  | literal
  | interpolated
  deriving DecidableEq, Repr

/-- A `Lexer::StringSegment`: kind, start location, length. -/
structure StringSegment where
  kind : SegKind
  loc : Int
  length : Nat
  deriving DecidableEq, Repr

/-- The loop of `getStringPartTokens`, with the running index `i` and the
segment count `e` explicit.  `locOffset` is the external
`SourceManager::getLocOffsetInBuffer`, `tokenizeRange` the recursive
`swift::tokenize` invocation over a sub-range (comments kept), and `textAt`
the buffer slice `StringRef(Loc.getPointer(), Len)`. -/
def getStringPartTokensGo (locOffset : Int → Nat) (tokenizeRange : Nat → Nat → List Token)
    (textAt : Int → Nat → String) (e : Nat) : Nat → List StringSegment → List Token
  | _, [] => []
  | i, seg :: rest =>
    let isFirst := i = 0
    let isLast := i = e - 1
    (match seg.kind with
     | .literal =>
       let loc := if isFirst then seg.loc - 1 else seg.loc
       let len := seg.length + (if isFirst then 1 else 0) + (if isLast then 1 else 0)
       [⟨.string_literal, textAt loc len, loc, len⟩]
     | .interpolated =>
       tokenizeRange (locOffset seg.loc) (locOffset seg.loc + seg.length))
    ++ getStringPartTokensGo locOffset tokenizeRange textAt e (i + 1) rest

/-- `getStringPartTokens(Tok, SM, BufID, Toks)` restricted to the tokens it
appends, given the segments the external `Lexer::getStringLiteralSegments`
computed for the string-literal token. -/
def getStringPartTokens (locOffset : Int → Nat) (tokenizeRange : Nat → Nat → List Token)
    (textAt : Int → Nat → String) (segs : List StringSegment) : List Token :=
  getStringPartTokensGo locOffset tokenizeRange textAt segs.length 0 segs

/-- The token a literal segment is synthesized into, written from the spec's
sentence: the first segment extends back by one to include the leading quote,
the last extends its length by one for the trailing quote, a sole segment
gets both extensions. -/
def literalPartToken (textAt : Int → Nat → String) (isFirst isLast : Prop)
    [Decidable isFirst] [Decidable isLast] (seg : StringSegment) : Token :=
  let loc := if isFirst then seg.loc - 1 else seg.loc
  let len := seg.length + (if isFirst then 1 else 0) + (if isLast then 1 else 0)
  ⟨.string_literal, textAt loc len, loc, len⟩

/-- `swift::tokenize(SM, BufferID, Offset, EndOffset, KeepComments,
TokenizeInterpolatedString)`.  The external lexer is abstracted as
`lex off endOff keep`, the tokens it produces for the range before its
terminating `eof` (the do/while loop appends that `eof` and immediately
`pop_back`s it, so the returned sequence is exactly the processed pre-`eof`
stream); `segsOf` abstracts `Lexer::getStringLiteralSegments`.  `fuel` bounds
the string-interpolation re-tokenization depth; the recursive call keeps
comments and — modelled from the spec's 4.6, the defaulted argument living in
the missing header — splits interpolated strings again. -/
def tokenizeF (bufSize : Nat) (lex : Nat → Nat → Bool → List Token)
    (segsOf : Token → List StringSegment) (locOffset : Int → Nat)
    (textAt : Int → Nat → String) : Nat → Nat → Nat → Bool → Bool → List Token
  | 0, _, _, _, _ => []
  | fuel + 1, off, endOff, keep, split =>
    let stop := if off = 0 ∧ endOff = 0 then bufSize else endOff
    (lex off stop keep).flatMap fun t =>
      if t.kind = .string_literal ∧ split then
        getStringPartTokens locOffset
          (fun o e => tokenizeF bufSize lex segsOf locOffset textAt fuel o e true true)
          textAt (segsOf t)
      else [t]

/-! ## Delayed parsing (`ParseDelayedFunctionBodies`, `parseDelayedTopLevelDecl`) -/

/-- Observable events of the delayed-parsing pass, in order. -/
inductive DelayedParseEvent where
  | createCallbacks
  | setCallbacks
  | parseBody
  | parseTopLevel
  | doneParsingOn (receiverIsNull : Bool)
  deriving DecidableEq, Repr

/-- `ParseDelayedFunctionBodies::parseFunctionBody` as its event trace: the
`CodeCompletion` unique_ptr is filled only under `if (CodeCompletionFactory)`,
yet `CodeCompletion->doneParsing()` runs unconditionally afterwards — when no
factory is present the receiver of that call is the null pointer. -/
def parseFunctionBodyEvents (hasFactory : Bool) : List DelayedParseEvent :=
  (if hasFactory then [.createCallbacks, .setCallbacks] else [])
    ++ [.parseBody, .doneParsingOn (!hasFactory)]

/-- `parseDelayedTopLevelDecl` as its event trace: `none` models the entry
`assert(CodeCompletionFactory && ...)`; without a delayed decl it returns
immediately; otherwise the callback object always exists when `doneParsing`
is called. -/
def parseDelayedTopLevelDeclEvents (hasFactory hasDelayedDecl : Bool) :
    Option (List DelayedParseEvent) :=
  if ¬hasFactory then none
  else if ¬hasDelayedDecl then some []
  else some [.createCallbacks, .setCallbacks, .parseTopLevel, .doneParsingOn false]

/-! ## Parser construction and persistent state -/

/-- A saved cursor position (`PersistentParserState::ParserPosition`); the
invalid default-constructed position is `Option.none` at the use site. -/
structure PPos where
  loc : Int
  deriving DecidableEq, Repr

/-- The persistent parser state, as far as the constructor consults it. -/
structure PersistentParserState where
  parserPos : Option PPos
  deriving DecidableEq, Repr

/-- Modelled from the spec: `PersistentParserState::takeParserPosition` is
declared in the missing `swift/Parse/Parser.h`; per §3 of the spec, "It must
never hold two saved positions simultaneously — taking a position clears
it", so taking returns the saved position and leaves the state with none. -/
def takeParserPosition (st : PersistentParserState) : Option PPos × PersistentParserState :=
  (st.parserPos, { st with parserPos := none })

/-- Where the freshly constructed parser's cursor begins. -/
inductive InitCursor where
  | restored (p : PPos)
  | fromStart
  deriving DecidableEq, Repr

/-- The tail of `Parser::Parser(BufferID, TU, SIL, PersistentState)`: after
installing the `NUM_TOKENS` sentinel, take the saved parser position from the
persistent state and restore it only when it is valid and
`FindBufferContainingLoc` (abstracted as `findBuffer`) places it in this
parser's buffer. -/
def parserCtor (bufferID : Int) (findBuffer : Int → Int)
    (st : PersistentParserState) : PersistentParserState × InitCursor :=
  let r := takeParserPosition st
  match r.1 with
  | some p => if findBuffer p.loc = bufferID then (r.2, .restored p) else (r.2, .fromStart)
  | none => (r.2, .fromStart)

/-! ## Concrete artefacts used by counterexamples and witnesses -/

/-- An element callback that consumes one token unless at `eof` (a minimal
grammar production: parse a single-token element, failing at end of input). -/
def cbOne (s : PState) : Bool × PState :=
  if (curT s).kind = .eof then (true, s) else (false, consumeTok s)

/-! ## Basic state lemmas -/

theorem consumeTok_toks (s : PState) : (consumeTok s).toks = s.toks.tail := rfl

theorem consumeTok_diags (s : PState) : (consumeTok s).diags = s.diags := rfl

theorem diagnose_toks (l : Int) (m : DiagMsg) (f : Option FixIt) (s : PState) :
    (diagnose l m f s).toks = s.toks := rfl

theorem curT_congr {x y : PState} (h : x.toks = y.toks) : curT x = curT y := by
  unfold curT
  rw [h]

theorem toks_ne_nil_of_kind {s : PState} (h : (curT s).kind ≠ .eof) : s.toks ≠ [] := by
  intro hnil
  apply h
  simp [curT, hnil, eofTok]

theorem consumeIfTok_suffix (k : TokKind) (s : PState) :
    (consumeIfTok k s).toks <:+ s.toks ∧ (consumeIfTok k s).diags = s.diags := by
  unfold consumeIfTok
  split
  · exact ⟨List.tail_suffix s.toks, rfl⟩
  · exact ⟨List.suffix_refl s.toks, rfl⟩

/-! ## Suffix and strict-consumption lemmas for the skip functions -/

theorem skipF_suffix (fuel : Nat) :
    (∀ stop s, (skipSingleF fuel stop s).toks <:+ s.toks ∧
      (skipSingleF fuel stop s).diags = s.diags) ∧
    (∀ T1 T2 stop s, (skipUntilF fuel T1 T2 stop s).toks <:+ s.toks ∧
      (skipUntilF fuel T1 T2 stop s).diags = s.diags) := by
  induction fuel with
  | zero =>
    constructor
    · intro stop s; exact ⟨List.suffix_refl _, rfl⟩
    · intro T1 T2 stop s; exact ⟨List.suffix_refl _, rfl⟩
  | succ n ih =>
    have hBracket : ∀ (c : TokKind) (stop : Bool) (s : PState),
        (consumeIfTok c (skipUntilF n c .unknown stop (consumeTok s))).toks <:+ s.toks ∧
        (consumeIfTok c (skipUntilF n c .unknown stop (consumeTok s))).diags = s.diags := by
      intro c stop s
      have h1 := ih.2 c .unknown stop (consumeTok s)
      have h2 := consumeIfTok_suffix c (skipUntilF n c .unknown stop (consumeTok s))
      constructor
      · exact h2.1.trans (h1.1.trans (by rw [consumeTok_toks]; exact List.tail_suffix _))
      · rw [h2.2, h1.2, consumeTok_diags]
    constructor
    · intro stop s
      show (skipSingleF (n + 1) stop s).toks <:+ s.toks ∧ _
      simp only [skipSingleF]
      split
      · exact hBracket _ stop s
      · split
        · exact hBracket _ stop s
        · split
          · exact hBracket _ stop s
          · split
            · split
              · exact ⟨List.suffix_refl _, rfl⟩
              · exact ⟨List.tail_suffix _, rfl⟩
            · exact ⟨List.tail_suffix _, rfl⟩
    · intro T1 T2 stop s
      show (skipUntilF (n + 1) T1 T2 stop s).toks <:+ s.toks ∧ _
      simp only [skipUntilF]
      split
      · exact ⟨List.suffix_refl _, rfl⟩
      · split
        · have h1 := ih.1 stop s
          have h2 := ih.2 T1 T2 stop (skipSingleF n stop s)
          exact ⟨h2.1.trans h1.1, by rw [h2.2, h1.2]⟩
        · exact ⟨List.suffix_refl _, rfl⟩

theorem skipSingleF_strict (fuel : Nat) (stop : Bool) (s : PState)
    (hf : 1 ≤ fuel) (he : (curT s).kind ≠ .eof)
    (hc : stop = true → (curT s).kind ≠ .code_complete) :
    (skipSingleF fuel stop s).toks.length < s.toks.length := by
  obtain ⟨n, rfl⟩ : ∃ n, fuel = n + 1 := ⟨fuel - 1, by omega⟩
  have hne : s.toks ≠ [] := toks_ne_nil_of_kind he
  have htail : s.toks.tail.length < s.toks.length := by
    cases h : s.toks with
    | nil => exact absurd h hne
    | cons a l => simp [h]
  have hBracket : ∀ (c : TokKind),
      (consumeIfTok c (skipUntilF n c .unknown stop (consumeTok s))).toks.length <
        s.toks.length := by
    intro c
    have h1 := (skipF_suffix n).2 c .unknown stop (consumeTok s)
    have h2 := consumeIfTok_suffix c (skipUntilF n c .unknown stop (consumeTok s))
    have := (h2.1.trans h1.1).length_le
    rw [consumeTok_toks] at this
    omega
  show (skipSingleF (n + 1) stop s).toks.length < s.toks.length
  simp only [skipSingleF]
  split
  · exact hBracket _
  · split
    · exact hBracket _
    · split
      · exact hBracket _
      · split
        · next hcc =>
          cases stop with
          | false => simpa [consumeTok_toks] using htail
          | true => exact absurd hcc (hc rfl)
        · simpa [consumeTok_toks] using htail

theorem skipSingleF_succ (fuel : Nat) (stop : Bool) (s : PState) :
    skipSingleF (fuel + 1) stop s =
    if (curT s).kind = .l_paren then
      consumeIfTok .r_paren (skipUntilF fuel .r_paren .unknown stop (consumeTok s))
    else if (curT s).kind = .l_brace then
      consumeIfTok .r_brace (skipUntilF fuel .r_brace .unknown stop (consumeTok s))
    else if (curT s).kind = .l_square then
      consumeIfTok .r_square (skipUntilF fuel .r_square .unknown stop (consumeTok s))
    else if (curT s).kind = .code_complete then
      if stop then s else consumeTok s
    else consumeTok s := rfl

theorem skipUntilF_succ (fuel : Nat) (T1 T2 : TokKind) (stop : Bool) (s : PState) :
    skipUntilF (fuel + 1) T1 T2 stop s =
    if T1 = .unknown ∧ T2 = .unknown then s
    else if (curT s).kind ≠ .eof ∧ (curT s).kind ≠ T1 ∧ (curT s).kind ≠ T2 ∧
        (stop = false ∨ (curT s).kind ≠ .code_complete) then
      skipUntilF fuel T1 T2 stop (skipSingleF fuel stop s)
    else s := rfl

/-- Above the explicit bounds, the fuelled skip functions no longer depend on
the fuel: the mutual recursion of the source terminates within these bounds. -/
theorem skip_stab (n : Nat) : ∀ s : PState, s.toks.length ≤ n →
    (∀ stop f₁ f₂, singleBound s ≤ f₁ → singleBound s ≤ f₂ →
      skipSingleF f₁ stop s = skipSingleF f₂ stop s) ∧
    (∀ T1 T2 stop f₁ f₂, untilBound s ≤ f₁ → untilBound s ≤ f₂ →
      skipUntilF f₁ T1 T2 stop s = skipUntilF f₂ T1 T2 stop s) := by
  induction n with
  | zero =>
    intro s hlen
    have hnil : s.toks = [] := List.length_eq_zero.mp (Nat.le_zero.mp hlen)
    have hk : (curT s).kind = .eof := by simp [curT, hnil, eofTok]
    constructor
    · intro stop f₁ f₂ h₁ h₂
      obtain ⟨a, rfl⟩ : ∃ a, f₁ = a + 1 := ⟨f₁ - 1, by unfold singleBound at h₁; omega⟩
      obtain ⟨b, rfl⟩ : ∃ b, f₂ = b + 1 := ⟨f₂ - 1, by unfold singleBound at h₂; omega⟩
      simp [skipSingleF, hk]
    · intro T1 T2 stop f₁ f₂ h₁ h₂
      obtain ⟨a, rfl⟩ : ∃ a, f₁ = a + 1 := ⟨f₁ - 1, by unfold untilBound at h₁; omega⟩
      obtain ⟨b, rfl⟩ : ∃ b, f₂ = b + 1 := ⟨f₂ - 1, by unfold untilBound at h₂; omega⟩
      simp only [skipUntilF]
      split
      · rfl
      · split
        · next hg => exact absurd hk hg.1
        · rfl
    | succ n ih =>
    intro s hlen
    have hS : ∀ stop f₁ f₂, singleBound s ≤ f₁ → singleBound s ≤ f₂ →
        skipSingleF f₁ stop s = skipSingleF f₂ stop s := by
      intro stop f₁ f₂ h₁ h₂
      obtain ⟨a, rfl⟩ : ∃ a, f₁ = a + 1 := ⟨f₁ - 1, by unfold singleBound at h₁; omega⟩
      obtain ⟨b, rfl⟩ : ∃ b, f₂ = b + 1 := ⟨f₂ - 1, by unfold singleBound at h₂; omega⟩
      have hbr : ∀ c : TokKind, (curT s).kind ≠ .eof →
          skipUntilF a c .unknown stop (consumeTok s) =
          skipUntilF b c .unknown stop (consumeTok s) := by
        intro c hne
        have hne' : s.toks ≠ [] := toks_ne_nil_of_kind hne
        have hlt : (consumeTok s).toks.length + 1 = s.toks.length := by
          rw [consumeTok_toks]
          cases h : s.toks with
          | nil => exact absurd h hne'
          | cons x l => simp [h]
        have hb : untilBound (consumeTok s) ≤ a ∧ untilBound (consumeTok s) ≤ b := by
          unfold untilBound singleBound at *
          omega
        exact (ih (consumeTok s) (by omega)).2 c .unknown stop a b hb.1 hb.2
      simp only [skipSingleF]
      split
      · next h => rw [hbr _ (by rw [h]; decide)]
      · split
        · next h => rw [hbr _ (by rw [h]; decide)]
        · split
          · next h => rw [hbr _ (by rw [h]; decide)]
          · split
            · rfl
            · rfl
    refine ⟨hS, ?_⟩
    intro T1 T2 stop f₁ f₂ h₁ h₂
    obtain ⟨a, rfl⟩ : ∃ a, f₁ = a + 1 := ⟨f₁ - 1, by unfold untilBound at h₁; omega⟩
    obtain ⟨b, rfl⟩ : ∃ b, f₂ = b + 1 := ⟨f₂ - 1, by unfold untilBound at h₂; omega⟩
    simp only [skipUntilF]
    split
    · rfl
    · split
      · next hg =>
        have hab : skipSingleF a stop s = skipSingleF b stop s := by
          apply hS <;> (unfold singleBound untilBound at *; omega)
        rw [hab]
        have hstrict : (skipSingleF b stop s).toks.length < s.toks.length := by
          apply skipSingleF_strict
          · unfold untilBound at h₂; omega
          · exact hg.1
          · intro hstop
            rcases hg.2.2.2 with h | h
            · rw [hstop] at h; cases h
            · exact h
        have hb : untilBound (skipSingleF b stop s) ≤ a ∧
            untilBound (skipSingleF b stop s) ≤ b := by
          unfold untilBound at *; omega
        exact (ih (skipSingleF b stop s) (by omega)).2 T1 T2 stop a b hb.1 hb.2
      · rfl

/-- `skipSingle` consumes at least one token whenever the current token is
not `eof` and is not a code-completion marker the caller asked to stop at. -/
theorem skipSingle_strict (stop : Bool) (s : PState)
    (he : (curT s).kind ≠ .eof)
    (hc : stop = true → (curT s).kind ≠ .code_complete) :
    (skipSingle stop s).toks.length < s.toks.length :=
  skipSingleF_strict _ stop s (by unfold singleBound; omega) he hc

theorem skipSingle_suffix (stop : Bool) (s : PState) :
    (skipSingle stop s).toks <:+ s.toks ∧ (skipSingle stop s).diags = s.diags :=
  (skipF_suffix _).1 stop s

theorem skipUntil_suffix (T1 T2 : TokKind) (stop : Bool) (s : PState) :
    (skipUntil T1 T2 stop s).toks <:+ s.toks ∧ (skipUntil T1 T2 stop s).diags = s.diags :=
  (skipF_suffix _).2 T1 T2 stop s

/-- The recurrence the source's `skipSingle` satisfies, with the fuel hidden. -/
theorem skipSingle_eq (stop : Bool) (s : PState) : skipSingle stop s =
    if (curT s).kind = .l_paren then
      consumeIfTok .r_paren (skipUntil .r_paren .unknown stop (consumeTok s))
    else if (curT s).kind = .l_brace then
      consumeIfTok .r_brace (skipUntil .r_brace .unknown stop (consumeTok s))
    else if (curT s).kind = .l_square then
      consumeIfTok .r_square (skipUntil .r_square .unknown stop (consumeTok s))
    else if (curT s).kind = .code_complete then
      if stop then s else consumeTok s
    else consumeTok s := by
  have hbr : ∀ c : TokKind, (curT s).kind ≠ .eof →
      skipUntilF (2 * s.toks.length) c .unknown stop (consumeTok s) =
      skipUntil c .unknown stop (consumeTok s) := by
    intro c hne
    have hne' : s.toks ≠ [] := toks_ne_nil_of_kind hne
    have hlt : (consumeTok s).toks.length + 1 = s.toks.length := by
      rw [consumeTok_toks]
      cases h : s.toks with
      | nil => exact absurd h hne'
      | cons x l => simp [h]
    exact (skip_stab _ (consumeTok s) le_rfl).2 c .unknown stop _ _
      (by unfold untilBound; omega) le_rfl
  show skipSingleF (2 * s.toks.length + 1) stop s = _
  rw [skipSingleF_succ]
  split
  · next h => rw [hbr _ (by rw [h]; decide)]
  · split
    · next h => rw [hbr _ (by rw [h]; decide)]
    · split
      · next h => rw [hbr _ (by rw [h]; decide)]
      · rfl

/-- The recurrence the source's `skipUntil` satisfies, with the fuel hidden. -/
theorem skipUntil_eq (T1 T2 : TokKind) (stop : Bool) (s : PState) :
    skipUntil T1 T2 stop s =
    if T1 = .unknown ∧ T2 = .unknown then s
    else if (curT s).kind ≠ .eof ∧ (curT s).kind ≠ T1 ∧ (curT s).kind ≠ T2 ∧
        (stop = false ∨ (curT s).kind ≠ .code_complete) then
      skipUntil T1 T2 stop (skipSingle stop s)
    else s := by
  show skipUntilF (2 * s.toks.length + 1 + 1) T1 T2 stop s = _
  rw [skipUntilF_succ]
  split
  · rfl
  · split
    · next hg =>
      have h1 : skipSingleF (2 * s.toks.length + 1) stop s = skipSingle stop s := rfl
      rw [h1]
      have hstrict : (skipSingle stop s).toks.length < s.toks.length := by
        apply skipSingle_strict
        · exact hg.1
        · intro hstop
          rcases hg.2.2.2 with h | h
          · rw [hstop] at h; cases h
          · exact h
      exact (skip_stab _ (skipSingle stop s) le_rfl).2 T1 T2 stop
        (2 * s.toks.length + 1) (untilBound (skipSingle stop s))
        (by unfold untilBound; omega) le_rfl
    · rfl

/-! ## Where `skipUntil` stops -/

/-- A suffix of the token list is a drop by at most the remaining length. -/
theorem suffix_drop {l₁ l₂ : List Token} (h : l₁ <:+ l₂) :
    ∃ k, k ≤ l₂.length ∧ l₁ = l₂.drop k :=
  ⟨l₂.length - l₁.length, by omega, List.suffix_iff_eq_drop.mp h⟩

/-- On return from `skipUntil` (sentinel aside) the cursor is at `eof`, one of
the two targets, or — when requested — a code-completion marker. -/
theorem skipUntil_post (n : Nat) : ∀ s : PState, s.toks.length ≤ n →
    ∀ T1 T2 : TokKind, ∀ stop : Bool, ¬(T1 = .unknown ∧ T2 = .unknown) →
    (curT (skipUntil T1 T2 stop s)).kind = .eof ∨
    (curT (skipUntil T1 T2 stop s)).kind = T1 ∨
    (curT (skipUntil T1 T2 stop s)).kind = T2 ∨
    (stop = true ∧ (curT (skipUntil T1 T2 stop s)).kind = .code_complete) := by
  induction n with
  | zero =>
    intro s hlen T1 T2 stop hs
    have hnil : s.toks = [] := List.length_eq_zero.mp (Nat.le_zero.mp hlen)
    rw [skipUntil_eq]
    rw [if_neg hs, if_neg]
    · left; simp [curT, hnil, eofTok]
    · intro hg
      exact hg.1 (by simp [curT, hnil, eofTok])
  | succ n ih =>
    intro s hlen T1 T2 stop hs
    rw [skipUntil_eq, if_neg hs]
    split
    · next hg =>
      have hstrict : (skipSingle stop s).toks.length < s.toks.length := by
        apply skipSingle_strict
        · exact hg.1
        · intro hstop
          rcases hg.2.2.2 with h | h
          · rw [hstop] at h; cases h
          · exact h
      exact ih (skipSingle stop s) (by omega) T1 T2 stop hs
    · next hg =>
      rcases Decidable.em ((curT s).kind = .eof) with h | h
      · exact Or.inl h
      rcases Decidable.em ((curT s).kind = T1) with h1 | h1
      · exact Or.inr (Or.inl h1)
      rcases Decidable.em ((curT s).kind = T2) with h2 | h2
      · exact Or.inr (Or.inr (Or.inl h2))
      refine Or.inr (Or.inr (Or.inr ?_))
      cases hstop : stop with
      | false => exact absurd ⟨h, h1, h2, Or.inl hstop⟩ hg
      | true =>
        refine ⟨rfl, ?_⟩
        by_contra hcc
        exact hg ⟨h, h1, h2, Or.inr hcc⟩

/-- `skipUntil` with the two-`unknown` sentinel pair consumes nothing. -/
theorem skipUntil_sentinel (stop : Bool) (s : PState) :
    skipUntil .unknown .unknown stop s = s := by
  rw [skipUntil_eq]; simp

/-- If the entry guard of `skipUntil` holds, at least one token is consumed. -/
theorem skipUntil_strict (T1 T2 : TokKind) (stop : Bool) (s : PState)
    (hs : ¬(T1 = .unknown ∧ T2 = .unknown))
    (hg : (curT s).kind ≠ .eof ∧ (curT s).kind ≠ T1 ∧ (curT s).kind ≠ T2 ∧
      (stop = false ∨ (curT s).kind ≠ .code_complete)) :
    (skipUntil T1 T2 stop s).toks.length < s.toks.length := by
  rw [skipUntil_eq, if_neg hs, if_pos hg]
  have h1 := (skipUntil_suffix T1 T2 stop (skipSingle stop s)).1.length_le
  have h2 : (skipSingle stop s).toks.length < s.toks.length := by
    apply skipSingle_strict
    · exact hg.1
    · intro hstop
      rcases hg.2.2.2 with h | h
      · rw [hstop] at h; cases h
      · exact h
  omega

/-! ## Bracket-balance analysis of `skipSingle` -/

theorem runStack_append (stk : List TokKind) (a b : List Token) :
    runStack stk (a ++ b) = runStack (runStack stk a) b := by
  induction a generalizing stk with
  | nil => simp [runStack]
  | cons t ts ih =>
    cases stk with
    | nil =>
      show runStack [] (t :: (ts ++ b)) = runStack (runStack [] (t :: ts)) b
      simp only [runStack]
      exact ih _
    | cons c stk' =>
      show runStack (c :: stk') (t :: (ts ++ b)) = runStack (runStack (c :: stk') (t :: ts)) b
      simp only [runStack]
      by_cases h : t.kind = c
      · rw [if_pos h, if_pos h]; exact ih _
      · rw [if_neg h, if_neg h]; exact ih _

theorem runStack_skip_one (c : TokKind) (stk : List TokKind) (t : Token)
    (hne : t.kind ≠ c) (hop : matchingCloser t.kind = none) :
    runStack (c :: stk) [t] = c :: stk := by
  show runStack (c :: stk) (t :: []) = c :: stk
  simp only [runStack, if_neg hne, pushIfOpener, hop]

theorem matchingCloser_none {k : TokKind} (h1 : k ≠ .l_paren) (h2 : k ≠ .l_brace)
    (h3 : k ≠ .l_square) : matchingCloser k = none := by
  cases k <;> simp_all [matchingCloser]

/-- Joint chunk analysis: a completed `skipSingle` consumes a chunk that is
neutral for the bracket machine (relative to any pending closer other than
the chunk's own first kind), and `skipUntil closer unknown` either reaches
the closer with a neutral consumed chunk or stops at `eof`, at an
`unknown`-kind token (the defaulted second target), or at a code-completion
marker when asked to. -/
theorem skip_chunks (n : Nat) : ∀ s : PState, s.toks.length ≤ n →
    (∀ stop : Bool, (curT s).kind ≠ .eof →
      (stop = true → (curT s).kind ≠ .code_complete) →
      ∃ k, 1 ≤ k ∧ (skipSingle stop s).toks = s.toks.drop k ∧
        ((∀ c : TokKind, ∀ stk : List TokKind, c ≠ (curT s).kind →
            runStack (c :: stk) (s.toks.take k) = c :: stk) ∨
          (curT (skipSingle stop s)).kind = .eof ∨
          (curT (skipSingle stop s)).kind = .unknown ∨
          (stop = true ∧ (curT (skipSingle stop s)).kind = .code_complete))) ∧
    (∀ c : TokKind, ∀ stop : Bool, c ≠ .unknown →
      ∃ k, (skipUntil c .unknown stop s).toks = s.toks.drop k ∧
        (((curT (skipUntil c .unknown stop s)).kind = c ∧
            ∀ stk : List TokKind, runStack (c :: stk) (s.toks.take k) = c :: stk) ∨
          (curT (skipUntil c .unknown stop s)).kind = .eof ∨
          (curT (skipUntil c .unknown stop s)).kind = .unknown ∨
          (stop = true ∧ (curT (skipUntil c .unknown stop s)).kind = .code_complete))) := by
  induction n with
  | zero =>
    intro s hlen
    have hnil : s.toks = [] := List.length_eq_zero.mp (Nat.le_zero.mp hlen)
    have hk : (curT s).kind = .eof := by simp [curT, hnil, eofTok]
    constructor
    · intro stop he _
      exact absurd hk he
    · intro c stop hc
      have hs : ¬(c = TokKind.unknown ∧ TokKind.unknown = TokKind.unknown) := by
        intro h; exact hc h.1
      have hr : skipUntil c .unknown stop s = s := by
        rw [skipUntil_eq, if_neg hs, if_neg]
        intro hg; exact hg.1 hk
      refine ⟨0, by rw [hr, List.drop_zero], ?_⟩
      rw [hr]
      exact Or.inr (Or.inl hk)
  | succ n ih =>
    intro s hlen
    have hL0 : ∀ stop : Bool, (curT s).kind ≠ .eof →
        (stop = true → (curT s).kind ≠ .code_complete) →
        ∃ k, 1 ≤ k ∧ (skipSingle stop s).toks = s.toks.drop k ∧
          ((∀ c : TokKind, ∀ stk : List TokKind, c ≠ (curT s).kind →
              runStack (c :: stk) (s.toks.take k) = c :: stk) ∨
            (curT (skipSingle stop s)).kind = .eof ∨
            (curT (skipSingle stop s)).kind = .unknown ∨
            (stop = true ∧ (curT (skipSingle stop s)).kind = .code_complete)) := by
      intro stop he hcc
      obtain ⟨t0, tl, htoks⟩ : ∃ t0 tl, s.toks = t0 :: tl := by
        cases h : s.toks with
        | nil => exact absurd h (toks_ne_nil_of_kind he)
        | cons x l => exact ⟨x, l, rfl⟩
      have hcur : curT s = t0 := by simp [curT, htoks]
      have htl : tl.length ≤ n := by
        have := hlen; rw [htoks] at this; simpa using this
      -- The three bracket-opening branches of the switch, uniformly.
      have bracket : ∀ c₀ : TokKind, matchingCloser t0.kind = some c₀ →
          c₀ ≠ .unknown → c₀ ≠ .eof → c₀ ≠ .code_complete →
          skipSingle stop s = consumeIfTok c₀ (skipUntil c₀ .unknown stop (consumeTok s)) →
          ∃ k, 1 ≤ k ∧ (skipSingle stop s).toks = s.toks.drop k ∧
            ((∀ c : TokKind, ∀ stk : List TokKind, c ≠ (curT s).kind →
                runStack (c :: stk) (s.toks.take k) = c :: stk) ∨
              (curT (skipSingle stop s)).kind = .eof ∨
              (curT (skipSingle stop s)).kind = .unknown ∨
              (stop = true ∧ (curT (skipSingle stop s)).kind = .code_complete)) := by
        intro c₀ hco hcu hce hccx hr
        have htail : (consumeTok s).toks = tl := by rw [consumeTok_toks, htoks]; rfl
        have hlen' : (consumeTok s).toks.length ≤ n := by rw [htail]; exact htl
        obtain ⟨k₁, hk₁, hdisj⟩ := (ih (consumeTok s) hlen').2 c₀ stop hcu
        set u := skipUntil c₀ .unknown stop (consumeTok s) with hu
        rw [htail] at hk₁
        rcases hdisj with ⟨hucur, hneut⟩ | hland
        · -- The matching closer was reached and is consumed by `consumeIf`.
          rw [htail] at hneut
          obtain ⟨t1, rest, hutoks⟩ : ∃ t1 rest, u.toks = t1 :: rest := by
            cases h : u.toks with
            | nil =>
              exfalso
              apply hce
              have : curT u = eofTok := by simp [curT, h]
              rw [this] at hucur
              exact hucur.symm
            | cons x l => exact ⟨x, l, rfl⟩
          have ht1 : t1.kind = c₀ := by
            have : curT u = t1 := by simp [curT, hutoks]
            rw [this] at hucur; exact hucur
          have hcons : consumeIfTok c₀ u = consumeTok u := by
            unfold consumeIfTok
            rw [if_pos (by simp [curT, hutoks, ht1])]
          have hdtl : tl.drop k₁ = t1 :: rest := by rw [← hk₁, hutoks]
          refine ⟨k₁ + 2, by omega, ?_, ?_⟩
          · rw [hr, hcons, consumeTok_toks, hutoks, htoks]
            show rest = List.drop (k₁ + 2) (t0 :: tl)
            rw [List.drop_succ_cons, ← List.tail_drop, hdtl]
            rfl
          · left
            intro c stk hcne
            have hcne' : c ≠ t0.kind := by rw [hcur] at hcne; exact hcne
            rw [htoks]
            have htake : (t0 :: tl).take (k₁ + 2) = t0 :: (tl.take k₁ ++ [t1]) := by
              rw [List.take_succ_cons]
              congr 1
              rw [List.take_add tl k₁ 1, hdtl]
              rfl
            rw [htake]
            have hstep : runStack (c :: stk) (t0 :: (tl.take k₁ ++ [t1])) =
                runStack (pushIfOpener t0 (c :: stk)) (tl.take k₁ ++ [t1]) := by
              simp only [runStack]
              rw [if_neg (show ¬t0.kind = c from fun hx => hcne' hx.symm)]
            rw [hstep]
            have hpush : pushIfOpener t0 (c :: stk) = c₀ :: c :: stk := by
              unfold pushIfOpener; rw [hco]
            rw [hpush, runStack_append, hneut (c :: stk)]
            show runStack (c₀ :: c :: stk) (t1 :: []) = c :: stk
            simp only [runStack, if_pos ht1]
        · -- `skipUntil` stopped at `eof`, `unknown`, or a completion marker.
          have hnc : (curT u).kind ≠ c₀ := by
            rcases hland with h | h | h
            · rw [h]; exact fun hx => hce hx.symm
            · rw [h]; exact fun hx => hcu hx.symm
            · rw [h.2]; exact fun hx => hccx hx.symm
          have hid : consumeIfTok c₀ u = u := by
            unfold consumeIfTok; rw [if_neg hnc]
          refine ⟨k₁ + 1, by omega, ?_, ?_⟩
          · rw [hr, hid, hk₁, htoks, List.drop_succ_cons]
          · rw [hr, hid]
            exact Or.inr hland
      by_cases h1 : (curT s).kind = .l_paren
      · exact bracket .r_paren (by rw [← hcur]; rw [h1]; rfl) (by decide) (by decide)
          (by decide) (by rw [skipSingle_eq, if_pos h1])
      by_cases h2 : (curT s).kind = .l_brace
      · exact bracket .r_brace (by rw [← hcur]; rw [h2]; rfl) (by decide) (by decide)
          (by decide) (by rw [skipSingle_eq, if_neg h1, if_pos h2])
      by_cases h3 : (curT s).kind = .l_square
      · exact bracket .r_square (by rw [← hcur]; rw [h3]; rfl) (by decide) (by decide)
          (by decide) (by rw [skipSingle_eq, if_neg h1, if_neg h2, if_pos h3])
      have hone : ∃ k, 1 ≤ k ∧ (consumeTok s).toks = s.toks.drop k ∧
          (∀ c : TokKind, ∀ stk : List TokKind, c ≠ (curT s).kind →
            runStack (c :: stk) (s.toks.take k) = c :: stk) := by
        refine ⟨1, le_rfl,
          by rw [consumeTok_toks, htoks, List.drop_succ_cons, List.drop_zero]; rfl, ?_⟩
        intro c stk hcne
        rw [htoks]
        show runStack (c :: stk) ((t0 :: tl).take 1) = c :: stk
        rw [show (1 : Nat) = 0 + 1 from rfl, List.take_succ_cons, List.take_zero]
        refine runStack_skip_one c stk t0 ?_ ?_
        · rw [← hcur]; exact fun h => hcne h.symm
        · rw [← hcur]; exact matchingCloser_none h1 h2 h3
      by_cases h4 : (curT s).kind = .code_complete
      · cases hstop : stop with
        | true => exact absurd h4 (hcc hstop)
        | false =>
          have hr : skipSingle false s = consumeTok s := by
            rw [skipSingle_eq, if_neg h1, if_neg h2, if_neg h3, if_pos h4]
            rfl
          rw [hr]
          obtain ⟨k, hk, hdrop, hneut⟩ := hone
          exact ⟨k, hk, hdrop, Or.inl hneut⟩
      · have hr : skipSingle stop s = consumeTok s := by
          rw [skipSingle_eq, if_neg h1, if_neg h2, if_neg h3, if_neg h4]
        rw [hr]
        obtain ⟨k, hk, hdrop, hneut⟩ := hone
        exact ⟨k, hk, hdrop, Or.inl hneut⟩
    refine ⟨hL0, ?_⟩
    intro c stop hc
    have hs : ¬(c = TokKind.unknown ∧ TokKind.unknown = TokKind.unknown) := by
      intro h; exact hc h.1
    rw [skipUntil_eq, if_neg hs]
    split
    · next hg =>
      have hcc : stop = true → (curT s).kind ≠ .code_complete := by
        intro hstop
        rcases hg.2.2.2 with h | h
        · rw [hstop] at h; cases h
        · exact h
      obtain ⟨k₁, hk1, hdrop₁, hdisj₁⟩ := hL0 stop hg.1 hcc
      set s' := skipSingle stop s with hs'
      have hlen' : s'.toks.length ≤ n := by
        have hstrict : s'.toks.length < s.toks.length := skipSingle_strict stop s hg.1 hcc
        omega
      rcases hdisj₁ with hneut₁ | hland₁
      · obtain ⟨k₂, hdrop₂, hdisj₂⟩ := (ih s' hlen').2 c stop hc
        refine ⟨k₁ + k₂, ?_, ?_⟩
        · rw [hdrop₂, hdrop₁, List.drop_drop]
        · rcases hdisj₂ with ⟨hrc, hneut₂⟩ | hland₂
          · left
            refine ⟨hrc, ?_⟩
            intro stk
            rw [List.take_add, ← hdrop₁]
            rw [runStack_append]
            rw [hneut₁ c stk (fun h => hg.2.1 h.symm)]
            exact hneut₂ stk
          · exact Or.inr hland₂
      · -- `skipSingle` landed on a stopping token; the loop exits at once.
        have hguard : ¬((curT s').kind ≠ TokKind.eof ∧ (curT s').kind ≠ c ∧
            (curT s').kind ≠ TokKind.unknown ∧
            (stop = false ∨ (curT s').kind ≠ TokKind.code_complete)) := by
          rcases hland₁ with h | h | h
          · intro hg'; exact hg'.1 h
          · intro hg'; exact hg'.2.2.1 h
          · intro hg'
            rcases hg'.2.2.2 with hx | hx
            · rw [h.1] at hx; cases hx
            · exact hx h.2
        have hstop' : skipUntil c .unknown stop s' = s' := by
          rw [skipUntil_eq, if_neg hs, if_neg hguard]
        rw [hstop']
        exact ⟨k₁, hdrop₁, Or.inr hland₁⟩
    · next hg =>
      refine ⟨0, by rw [List.drop_zero], ?_⟩
      rcases Decidable.em ((curT s).kind = .eof) with h | h
      · exact Or.inr (Or.inl h)
      rcases Decidable.em ((curT s).kind = c) with h1 | h1
      · exact Or.inl ⟨h1, fun stk => by rw [List.take_zero]; rfl⟩
      rcases Decidable.em ((curT s).kind = .unknown) with h2 | h2
      · exact Or.inr (Or.inr (Or.inl h2))
      refine Or.inr (Or.inr (Or.inr ?_))
      cases hstop : stop with
      | false => exact absurd ⟨h, h1, h2, Or.inl hstop⟩ hg
      | true =>
        refine ⟨rfl, ?_⟩
        by_contra hcc
        exact hg ⟨h, h1, h2, Or.inr hcc⟩

theorem matchingCloser_cases {o c : TokKind} (h : matchingCloser o = some c) :
    (o = .l_paren ∧ c = .r_paren) ∨ (o = .l_brace ∧ c = .r_brace) ∨
    (o = .l_square ∧ c = .r_square) := by
  cases o <;> simp [matchingCloser] at h <;> simp [h]

/-! ## Claim C5 -/

/-- C5 (corrected here, claim refuted below): on any finite token stream
`skipUntil` terminates consuming at most the remaining tokens, and each
executed loop iteration consumes at least one token, so the loop makes at
most remaining-token-count steps; when both targets are the `unknown`
sentinel it consumes nothing at all, and otherwise the cursor is left at
`eof`, at one of the requested target kinds, or at a code-completion marker
when stop-at-completion was requested. -/
theorem skipUntil_termination_postcondition (T1 T2 : TokKind) (stop : Bool) (s : PState) :
    (∃ k, k ≤ s.toks.length ∧ (skipUntil T1 T2 stop s).toks = s.toks.drop k) ∧
    (¬(T1 = .unknown ∧ T2 = .unknown) →
      (curT s).kind ≠ .eof ∧ (curT s).kind ≠ T1 ∧ (curT s).kind ≠ T2 ∧
        (stop = false ∨ (curT s).kind ≠ .code_complete) →
      (skipUntil T1 T2 stop s).toks.length < s.toks.length) ∧
    (T1 = .unknown ∧ T2 = .unknown → skipUntil T1 T2 stop s = s) ∧
    (¬(T1 = .unknown ∧ T2 = .unknown) →
      (curT (skipUntil T1 T2 stop s)).kind = .eof ∨
      (curT (skipUntil T1 T2 stop s)).kind = T1 ∨
      (curT (skipUntil T1 T2 stop s)).kind = T2 ∨
      (stop = true ∧ (curT (skipUntil T1 T2 stop s)).kind = .code_complete)) := by
  refine ⟨suffix_drop (skipUntil_suffix T1 T2 stop s).1, ?_, ?_, ?_⟩
  · intro hs hg
    exact skipUntil_strict T1 T2 stop s hs hg
  · intro h
    obtain ⟨h1, h2⟩ := h
    subst h1; subst h2
    exact skipUntil_sentinel stop s
  · exact skipUntil_post s.toks.length s le_rfl T1 T2 stop

/-- C5 counterexample: with the sentinel target pair (both `unknown`) and the
cursor on an ordinary identifier, `skipUntil` returns with the cursor at that
identifier — not at `eof`, not at either requested target kind, and not at a
code-completion marker — so the claim's unconditional postcondition fails on
the very input its own sentinel clause describes. -/
theorem skipUntil_sentinel_post_cex :
    skipUntil .unknown .unknown false ⟨[⟨.identifier, "a", 1, 1⟩], 0, []⟩ =
      ⟨[⟨.identifier, "a", 1, 1⟩], 0, []⟩ ∧
    ¬((curT (skipUntil .unknown .unknown false ⟨[⟨.identifier, "a", 1, 1⟩], 0, []⟩)).kind
        = .eof ∨
      (curT (skipUntil .unknown .unknown false ⟨[⟨.identifier, "a", 1, 1⟩], 0, []⟩)).kind
        = .unknown ∨
      (curT (skipUntil .unknown .unknown false ⟨[⟨.identifier, "a", 1, 1⟩], 0, []⟩)).kind
        = .unknown ∨
      (false = true ∧
        (curT (skipUntil .unknown .unknown false ⟨[⟨.identifier, "a", 1, 1⟩], 0, []⟩)).kind
          = .code_complete)) := by
  decide

/-- C5 witness: the amended postcondition evaluated at a concrete stream. -/
theorem skipUntil_termination_postcondition_witness :
    (curT (skipUntil .r_paren .comma false
        ⟨[⟨.identifier, "a", 1, 1⟩, ⟨.r_paren, ")", 2, 1⟩], 0, []⟩)).kind = .eof ∨
    (curT (skipUntil .r_paren .comma false
        ⟨[⟨.identifier, "a", 1, 1⟩, ⟨.r_paren, ")", 2, 1⟩], 0, []⟩)).kind = .r_paren ∨
    (curT (skipUntil .r_paren .comma false
        ⟨[⟨.identifier, "a", 1, 1⟩, ⟨.r_paren, ")", 2, 1⟩], 0, []⟩)).kind = .comma ∨
    (false = true ∧
      (curT (skipUntil .r_paren .comma false
          ⟨[⟨.identifier, "a", 1, 1⟩, ⟨.r_paren, ")", 2, 1⟩], 0, []⟩)).kind
        = .code_complete) :=
  (skipUntil_termination_postcondition .r_paren .comma false
    ⟨[⟨.identifier, "a", 1, 1⟩, ⟨.r_paren, ")", 2, 1⟩], 0, []⟩).2.2.2 (by decide)

/-! ## Claim C4 -/

/-- C4 (corrected here, claim refuted below): `skipSingle` on an opening
bracket consumes the opener and skips to and consumes a matching closer,
leaving the bracket-machine nesting at zero relative to that opener — the
consumed chunk runs the closer-stack machine from the empty stack back to the
empty stack and ends with the matching closer — unless `eof`, an
`unknown`-kind token (the defaulted second target of the inner `skipUntil`),
or, when stop-at-code-completion was requested, a code-completion marker is
reached first. -/
theorem skipSingle_bracket_balance (stop : Bool) (s : PState) (o c : TokKind)
    (hk : (curT s).kind = o) (hc : matchingCloser o = some c) :
    ∃ k, 1 ≤ k ∧ (skipSingle stop s).toks = s.toks.drop k ∧
      ((2 ≤ k ∧ runStack [] (s.toks.take k) = [] ∧
          (∃ t : Token, (s.toks.take k).getLast? = some t ∧ t.kind = c)) ∨
        (curT (skipSingle stop s)).kind = .eof ∨
        (curT (skipSingle stop s)).kind = .unknown ∨
        (stop = true ∧ (curT (skipSingle stop s)).kind = .code_complete)) := by
  have hoe : (curT s).kind ≠ .eof := by
    rcases matchingCloser_cases hc with ⟨ho, _⟩ | ⟨ho, _⟩ | ⟨ho, _⟩ <;>
      (rw [hk, ho]; decide)
  obtain ⟨t0, tl, htoks⟩ : ∃ t0 tl, s.toks = t0 :: tl := by
    cases h : s.toks with
    | nil => exact absurd h (toks_ne_nil_of_kind hoe)
    | cons x l => exact ⟨x, l, rfl⟩
  have hcur : curT s = t0 := by simp [curT, htoks]
  have hco : matchingCloser t0.kind = some c := by rw [← hcur, hk]; exact hc
  have hcfacts : c ≠ .unknown ∧ c ≠ .eof ∧ c ≠ .code_complete := by
    rcases matchingCloser_cases hc with ⟨_, hcc⟩ | ⟨_, hcc⟩ | ⟨_, hcc⟩ <;>
      (rw [hcc]; exact ⟨by decide, by decide, by decide⟩)
  have hr : skipSingle stop s = consumeIfTok c (skipUntil c .unknown stop (consumeTok s)) := by
    rcases matchingCloser_cases hc with ⟨ho, hcc⟩ | ⟨ho, hcc⟩ | ⟨ho, hcc⟩
    · rw [hcc, skipSingle_eq, if_pos (by rw [hk, ho])]
    · rw [hcc, skipSingle_eq, if_neg (by rw [hk, ho]; decide),
        if_pos (by rw [hk, ho])]
    · rw [hcc, skipSingle_eq, if_neg (by rw [hk, ho]; decide),
        if_neg (by rw [hk, ho]; decide), if_pos (by rw [hk, ho])]
  have htail : (consumeTok s).toks = tl := by rw [consumeTok_toks, htoks]; rfl
  obtain ⟨k₁, hk₁, hdisj⟩ :=
    (skip_chunks (consumeTok s).toks.length (consumeTok s) le_rfl).2 c stop hcfacts.1
  set u := skipUntil c .unknown stop (consumeTok s) with hu
  rw [htail] at hk₁
  rcases hdisj with ⟨hucur, hneut⟩ | hland
  · rw [htail] at hneut
    obtain ⟨t1, rest, hutoks⟩ : ∃ t1 rest, u.toks = t1 :: rest := by
      cases h : u.toks with
      | nil =>
        exfalso
        apply hcfacts.2.1
        have : curT u = eofTok := by simp [curT, h]
        rw [this] at hucur
        exact hucur.symm
      | cons x l => exact ⟨x, l, rfl⟩
    have ht1 : t1.kind = c := by
      have : curT u = t1 := by simp [curT, hutoks]
      rw [this] at hucur; exact hucur
    have hcons : consumeIfTok c u = consumeTok u := by
      unfold consumeIfTok
      rw [if_pos (by simp [curT, hutoks, ht1])]
    have hdtl : tl.drop k₁ = t1 :: rest := by rw [← hk₁, hutoks]
    have htake : (t0 :: tl).take (k₁ + 2) = t0 :: (tl.take k₁ ++ [t1]) := by
      rw [List.take_succ_cons]
      congr 1
      rw [List.take_add tl k₁ 1, hdtl]
      rfl
    refine ⟨k₁ + 2, by omega, ?_, Or.inl ⟨by omega, ?_, ?_⟩⟩
    · rw [hr, hcons, consumeTok_toks, hutoks, htoks]
      show rest = List.drop (k₁ + 2) (t0 :: tl)
      rw [List.drop_succ_cons, ← List.tail_drop, hdtl]
      rfl
    · rw [htoks, htake]
      show runStack [] (t0 :: (tl.take k₁ ++ [t1])) = []
      have hstep : runStack [] (t0 :: (tl.take k₁ ++ [t1])) =
          runStack (pushIfOpener t0 []) (tl.take k₁ ++ [t1]) := by
        simp only [runStack]
      rw [hstep]
      have hpush : pushIfOpener t0 [] = [c] := by unfold pushIfOpener; rw [hco]
      rw [hpush, runStack_append, hneut []]
      show runStack (c :: []) (t1 :: []) = []
      simp only [runStack, if_pos ht1]
    · rw [htoks, htake]
      refine ⟨t1, ?_, ht1⟩
      rw [show t0 :: (tl.take k₁ ++ [t1]) = (t0 :: tl.take k₁) ++ [t1] from rfl]
      exact List.getLast?_concat _
  · have hnc : (curT u).kind ≠ c := by
      rcases hland with h | h | h
      · rw [h]; exact fun hx => hcfacts.2.1 hx.symm
      · rw [h]; exact fun hx => hcfacts.1 hx.symm
      · rw [h.2]; exact fun hx => hcfacts.2.2 hx.symm
    have hid : consumeIfTok c u = u := by
      unfold consumeIfTok; rw [if_neg hnc]
    refine ⟨k₁ + 1, by omega, ?_, ?_⟩
    · rw [hr, hid, hk₁, htoks, List.drop_succ_cons]
    · rw [hr, hid]
      exact Or.inr hland

/-- C4 counterexample: on the stream `( @ )` — where `@` is an `unknown`-kind
token, as the lexer produces for stray malformed characters — `skipSingle`
(without any stop-at-code-completion request) consumes only the opener and
stops on the `unknown` token: `eof` is not reached, the closer `)` is still
unconsumed in the stream, and the single consumed token leaves the bracket
machine with the expected closer still pending, refuting the claim that the
closer is always consumed and nesting returns to zero unless `eof` is reached
first. -/
theorem skipSingle_bracket_balance_cex :
    (skipSingle false
        ⟨[⟨.l_paren, "(", 1, 1⟩, ⟨.unknown, "@", 2, 1⟩, ⟨.r_paren, ")", 3, 1⟩], 0, []⟩).toks
      = [⟨.unknown, "@", 2, 1⟩, ⟨.r_paren, ")", 3, 1⟩] ∧
    (curT (skipSingle false
        ⟨[⟨.l_paren, "(", 1, 1⟩, ⟨.unknown, "@", 2, 1⟩, ⟨.r_paren, ")", 3, 1⟩], 0, []⟩)).kind
      ≠ .eof ∧
    runStack [] [⟨.l_paren, "(", 1, 1⟩] = [.r_paren] ∧
    ¬∃ k, 1 ≤ k ∧
      (skipSingle false
          ⟨[⟨.l_paren, "(", 1, 1⟩, ⟨.unknown, "@", 2, 1⟩, ⟨.r_paren, ")", 3, 1⟩], 0, []⟩).toks
        = ([⟨.l_paren, "(", 1, 1⟩, ⟨.unknown, "@", 2, 1⟩, ⟨.r_paren, ")", 3, 1⟩] :
            List Token).drop k ∧
      ((2 ≤ k ∧
          runStack []
            (([⟨.l_paren, "(", 1, 1⟩, ⟨.unknown, "@", 2, 1⟩, ⟨.r_paren, ")", 3, 1⟩] :
              List Token).take k) = [] ∧
          (∃ t : Token,
            (([⟨.l_paren, "(", 1, 1⟩, ⟨.unknown, "@", 2, 1⟩, ⟨.r_paren, ")", 3, 1⟩] :
              List Token).take k).getLast? = some t ∧ t.kind = .r_paren)) ∨
        (curT (skipSingle false
            ⟨[⟨.l_paren, "(", 1, 1⟩, ⟨.unknown, "@", 2, 1⟩, ⟨.r_paren, ")", 3, 1⟩],
              0, []⟩)).kind = .eof) := by
  refine ⟨by decide, by decide, by decide, ?_⟩
  rintro ⟨k, hk1, hdrop, hdisj⟩
  have hlen : (([⟨.l_paren, "(", 1, 1⟩, ⟨.unknown, "@", 2, 1⟩, ⟨.r_paren, ")", 3, 1⟩] :
      List Token).drop k).length = 2 := by
    rw [← hdrop]; decide
  rw [List.length_drop] at hlen
  have hklen : k = 1 := by simp at hlen; omega
  subst hklen
  rcases hdisj with ⟨h2, _⟩ | hfalse
  · omega
  · revert hfalse; decide

/-- C4 witness: the amended statement evaluated on the well-bracketed stream
`( x )`. -/
theorem skipSingle_bracket_balance_witness :
    ∃ k, 1 ≤ k ∧
      (skipSingle false
          ⟨[⟨.l_paren, "(", 1, 1⟩, ⟨.identifier, "x", 2, 1⟩, ⟨.r_paren, ")", 3, 1⟩],
            0, []⟩).toks
        = ([⟨.l_paren, "(", 1, 1⟩, ⟨.identifier, "x", 2, 1⟩, ⟨.r_paren, ")", 3, 1⟩] :
            List Token).drop k ∧
      ((2 ≤ k ∧
          runStack []
            (([⟨.l_paren, "(", 1, 1⟩, ⟨.identifier, "x", 2, 1⟩, ⟨.r_paren, ")", 3, 1⟩] :
              List Token).take k) = [] ∧
          (∃ t : Token,
            (([⟨.l_paren, "(", 1, 1⟩, ⟨.identifier, "x", 2, 1⟩, ⟨.r_paren, ")", 3, 1⟩] :
              List Token).take k).getLast? = some t ∧ t.kind = .r_paren)) ∨
        (curT (skipSingle false
            ⟨[⟨.l_paren, "(", 1, 1⟩, ⟨.identifier, "x", 2, 1⟩, ⟨.r_paren, ")", 3, 1⟩],
              0, []⟩)).kind = .eof ∨
        (curT (skipSingle false
            ⟨[⟨.l_paren, "(", 1, 1⟩, ⟨.identifier, "x", 2, 1⟩, ⟨.r_paren, ")", 3, 1⟩],
              0, []⟩)).kind = .unknown ∨
        (false = true ∧
          (curT (skipSingle false
              ⟨[⟨.l_paren, "(", 1, 1⟩, ⟨.identifier, "x", 2, 1⟩, ⟨.r_paren, ")", 3, 1⟩],
                0, []⟩)).kind = .code_complete)) :=
  skipSingle_bracket_balance false
    ⟨[⟨.l_paren, "(", 1, 1⟩, ⟨.identifier, "x", 2, 1⟩, ⟨.r_paren, ")", 3, 1⟩], 0, []⟩
    .l_paren .r_paren rfl rfl

/-! ## List-parser lemmas -/

theorem parseListF_succ (RightK : TokKind) (LeftLoc : Int) (SeparatorK : TokKind)
    (OptionalSep : Bool) (ErrorDiag : DiagMsg) (eot : Int → Int)
    (cb : PState → Bool × PState) (fuel : Nat) (invalid : Bool) (s : PState) :
    parseListF RightK LeftLoc SeparatorK OptionalSep ErrorDiag eot cb (fuel + 1) invalid s =
    match parseListBody RightK SeparatorK OptionalSep eot cb invalid s with
    | .cont inv' s' =>
      parseListF RightK LeftLoc SeparatorK OptionalSep ErrorDiag eot cb fuel inv' s'
    | .ret inv' rl s' => some (inv', rl, s')
    | .brk inv' s' =>
      match parseMatchingToken RightK ErrorDiag LeftLoc s' with
      | none => none
      | some (f, rl, s'') => some (inv' || f, rl, s'') := rfl

theorem eatGo_suffix (k : TokKind) : ∀ (l : List Token) (p : Int) (d : List Diagno),
    ∃ j, (eatGo k l p d).toks = l.drop j := by
  intro l
  induction l with
  | nil => intro p d; exact ⟨0, rfl⟩
  | cons t rest ih =>
    intro p d
    simp only [eatGo]
    split
    · obtain ⟨j, hj⟩ := ih t.loc
        (d ++ [⟨t.loc, .unexpected_separator (sepText k),
          some (.removeRange t.loc t.loc)⟩])
      exact ⟨j + 1, by rw [hj, List.drop_succ_cons]⟩
    · exact ⟨0, rfl⟩

theorem eatStraySeps_suffix (k : TokKind) (s : PState) :
    ∃ j, (eatStraySeps k s).toks = s.toks.drop j :=
  eatGo_suffix k s.toks s.prevLoc s.diags

theorem drop_ne_lt {l : List Token} {k : Nat} (h : l.drop k ≠ l) :
    (l.drop k).length < l.length := by
  rcases Nat.eq_zero_or_pos k with rfl | hk
  · simp at h
  · cases l with
    | nil => simp at h
    | cons a t =>
      have hto : (a :: t).length = t.length + 1 := by simp
      rw [List.length_drop, hto]
      omega

/-- After the element callback, a `cont` outcome of a list iteration either
consumed at least one token or left the token stream untouched while moving
off the recorded start position — which, for a suffix-consuming callback,
cannot happen without consumption. -/
theorem parseListAfterElem_cont (RightK SeparatorK : TokKind) (OptionalSep : Bool)
    (eot : Int → Int) (startLoc : Int) (inv1 : Bool) (s1 : PState)
    (hsep : SeparatorK = .comma ∨ SeparatorK = .semi)
    (inv' : Bool) (s' : PState)
    (h : parseListAfterElem RightK SeparatorK OptionalSep eot startLoc inv1 s1 =
      .cont inv' s') :
    s'.toks.length < s1.toks.length ∨
      (s'.toks = s1.toks ∧ (curT s1).loc ≠ startLoc) := by
  have hsent : ¬(RightK = TokKind.unknown ∧ SeparatorK = TokKind.unknown) := by
    rintro ⟨-, hS⟩
    rcases hsep with hc | hc <;> (rw [hc] at hS; cases hS)
  simp only [parseListAfterElem] at h
  split at h
  · exact IterOut.noConfusion h
  split at h
  · exact IterOut.noConfusion h
  split at h
  · next hksep =>
    rw [IterOut.cont.injEq] at h
    obtain ⟨h1, h2⟩ := h
    subst h2
    left
    have hne : s1.toks ≠ [] := by
      apply toks_ne_nil_of_kind
      rw [hksep]
      rcases hsep with hc | hc <;> (rw [hc]; decide)
    rw [consumeTok_toks]
    cases hx : s1.toks with
    | nil => exact absurd hx hne
    | cons a l => simp [hx]
  next hkR hkE hkS =>
    have hs2toks : (if OptionalSep then s1
        else diagnose (curT s1).loc (DiagMsg.expected_separator (sepText SeparatorK))
          (some (FixIt.insertText (eot s1.prevLoc) (sepText SeparatorK))) s1).toks
        = s1.toks := by
      split
      · rfl
      · rw [diagnose_toks]
    have hcur2 := curT_congr hs2toks
    set s2 := if OptionalSep then s1
      else diagnose (curT s1).loc (DiagMsg.expected_separator (sepText SeparatorK))
        (some (FixIt.insertText (eot s1.prevLoc) (sepText SeparatorK))) s1 with hs2def
    rw [hcur2] at h
    split at h
    · next hloc =>
      set s3 := skipUntil RightK SeparatorK false s2 with hs3def
      split at h
      · exact IterOut.noConfusion h
      split at h
      · exact IterOut.noConfusion h
      next hE hF =>
        rw [IterOut.cont.injEq] at h
        obtain ⟨h1, h2⟩ := h
        subst h2
        left
        by_cases heof : (curT s1).kind = .eof
        · exfalso
          have hguard : ¬((curT s2).kind ≠ TokKind.eof ∧ (curT s2).kind ≠ RightK ∧
              (curT s2).kind ≠ SeparatorK ∧
              (false = false ∨ (curT s2).kind ≠ TokKind.code_complete)) := by
            intro hg
            apply hg.1
            rw [hcur2]
            exact heof
          have hstay : s3 = s2 := by
            rw [hs3def, skipUntil_eq, if_neg hsent, if_neg hguard]
          rw [hstay] at hF
          exact hF (Or.inl (by rw [hcur2]; exact heof))
        · have hguard : (curT s2).kind ≠ TokKind.eof ∧ (curT s2).kind ≠ RightK ∧
              (curT s2).kind ≠ SeparatorK ∧
              (false = false ∨ (curT s2).kind ≠ TokKind.code_complete) := by
            rw [hcur2]
            exact ⟨heof, hkR, hkS, Or.inl rfl⟩
          have hstrict : s3.toks.length < s2.toks.length := by
            rw [hs3def]
            exact skipUntil_strict RightK SeparatorK false s2 hsent hguard
          have hcons := (consumeIfTok_suffix SeparatorK s3).1.length_le
          rw [hs2toks] at hstrict
          omega
    · next hloc =>
      rw [IterOut.cont.injEq] at h
      obtain ⟨h1, h2⟩ := h
      subst h2
      right
      exact ⟨hs2toks, hloc⟩

/-- A `cont` outcome of a whole list iteration strictly consumes tokens,
provided the element callback only ever consumes from the stream. -/
theorem parseListBody_cont_progress (RightK SeparatorK : TokKind) (OptionalSep : Bool)
    (eot : Int → Int) (cb : PState → Bool × PState)
    (hsep : SeparatorK = .comma ∨ SeparatorK = .semi)
    (hcb : ∀ t : PState, ∃ k, ((cb t).2).toks = t.toks.drop k)
    (invalid : Bool) (s : PState) (inv' : Bool) (s' : PState)
    (h : parseListBody RightK SeparatorK OptionalSep eot cb invalid s = .cont inv' s') :
    s'.toks.length < s.toks.length := by
  obtain ⟨j0, hj0⟩ := eatStraySeps_suffix SeparatorK s
  obtain ⟨j1, hj1⟩ := hcb (eatStraySeps SeparatorK s)
  have hlen0 : (eatStraySeps SeparatorK s).toks.length ≤ s.toks.length := by
    rw [hj0, List.length_drop]; omega
  have hlen1 : ((cb (eatStraySeps SeparatorK s)).2).toks.length ≤
      (eatStraySeps SeparatorK s).toks.length := by
    rw [hj1, List.length_drop]; omega
  have h' : parseListAfterElem RightK SeparatorK OptionalSep eot
      (curT (eatStraySeps SeparatorK s)).loc
      (invalid || (cb (eatStraySeps SeparatorK s)).1)
      ((cb (eatStraySeps SeparatorK s)).2) = .cont inv' s' := h
  rcases parseListAfterElem_cont RightK SeparatorK OptionalSep eot _ _ _ hsep _ _ h' with
    hlt | ⟨heq, hloc⟩
  · omega
  · -- no consumption by the callback would leave the cursor on the start token
    have hne : ((cb (eatStraySeps SeparatorK s)).2).toks ≠
        (eatStraySeps SeparatorK s).toks := by
      intro hx
      apply hloc
      rw [curT_congr hx]
    rw [hj1] at hne heq
    have hlt := drop_ne_lt hne
    rw [heq]
    omega

/-- With any fuel beyond one unit per remaining token (plus one), the list
loop has already reached its result: the loop runs at most
`s.toks.length + 1` iterations. -/
theorem parseListF_stab (RightK : TokKind) (LeftLoc : Int) (SeparatorK : TokKind)
    (OptionalSep : Bool) (ErrorDiag : DiagMsg) (eot : Int → Int)
    (cb : PState → Bool × PState)
    (hsep : SeparatorK = .comma ∨ SeparatorK = .semi)
    (hcb : ∀ t : PState, ∃ k, ((cb t).2).toks = t.toks.drop k) :
    ∀ n : Nat, ∀ s : PState, s.toks.length ≤ n → ∀ invalid : Bool, ∀ f : Nat,
      s.toks.length + 1 ≤ f →
      parseListF RightK LeftLoc SeparatorK OptionalSep ErrorDiag eot cb f invalid s =
      parseListF RightK LeftLoc SeparatorK OptionalSep ErrorDiag eot cb
        (s.toks.length + 1) invalid s := by
  intro n
  induction n with
  | zero =>
    intro s hlen invalid f hf
    obtain ⟨m, rfl⟩ : ∃ m, f = m + 1 := ⟨f - 1, by omega⟩
    rw [parseListF_succ, parseListF_succ]
    cases hbody : parseListBody RightK SeparatorK OptionalSep eot cb invalid s with
    | cont inv' s' =>
      exfalso
      have := parseListBody_cont_progress RightK SeparatorK OptionalSep eot cb
        hsep hcb invalid s inv' s' hbody
      omega
    | ret inv' rl s' => rfl
    | brk inv' s' => rfl
  | succ n ih =>
    intro s hlen invalid f hf
    obtain ⟨m, rfl⟩ : ∃ m, f = m + 1 := ⟨f - 1, by omega⟩
    rw [parseListF_succ, parseListF_succ]
    cases hbody : parseListBody RightK SeparatorK OptionalSep eot cb invalid s with
    | cont inv' s' =>
      have hprog := parseListBody_cont_progress RightK SeparatorK OptionalSep eot cb
        hsep hcb invalid s inv' s' hbody
      have h1 := ih s' (by omega) inv' m (by omega)
      have h2 := ih s' (by omega) inv' s.toks.length (by omega)
      show parseListF RightK LeftLoc SeparatorK OptionalSep ErrorDiag eot cb m inv' s' =
        parseListF RightK LeftLoc SeparatorK OptionalSep ErrorDiag eot cb
          s.toks.length inv' s'
      rw [h1, h2]
    | ret inv' rl s' => rfl
    | brk inv' s' => rfl

/-- Once the invalid flag is set entering an iteration, every outcome of that
iteration carries it. -/
theorem parseListAfterElem_flag (RightK SeparatorK : TokKind) (OptionalSep : Bool)
    (eot : Int → Int) (startLoc : Int) (s1 : PState) :
    (∀ b s', parseListAfterElem RightK SeparatorK OptionalSep eot startLoc true s1 =
      .brk b s' → b = true) ∧
    (∀ b rl s', parseListAfterElem RightK SeparatorK OptionalSep eot startLoc true s1 =
      .ret b rl s' → b = true) ∧
    (∀ b s', parseListAfterElem RightK SeparatorK OptionalSep eot startLoc true s1 =
      .cont b s' → b = true) := by
  refine ⟨?_, ?_, ?_⟩
  · intro b s' h
    simp only [parseListAfterElem, ite_self] at h
    repeat' split at h
    all_goals first
      | exact IterOut.noConfusion h
      | (rw [IterOut.brk.injEq] at h; exact h.1.symm)
  · intro b rl s' h
    simp only [parseListAfterElem, ite_self] at h
    repeat' split at h
    all_goals first
      | exact IterOut.noConfusion h
      | (rw [IterOut.ret.injEq] at h; exact h.1.symm)
  · intro b s' h
    simp only [parseListAfterElem, ite_self] at h
    repeat' split at h
    all_goals first
      | exact IterOut.noConfusion h
      | (rw [IterOut.cont.injEq] at h; exact h.1.symm)

/-- The invalid flag, once true, propagates to `parseList`'s result. -/
theorem parseListF_true (RightK : TokKind) (LeftLoc : Int) (SeparatorK : TokKind)
    (OptionalSep : Bool) (ErrorDiag : DiagMsg) (eot : Int → Int)
    (cb : PState → Bool × PState) :
    ∀ fuel : Nat, ∀ s : PState, ∀ res : Bool × Option Int × PState,
      parseListF RightK LeftLoc SeparatorK OptionalSep ErrorDiag eot cb fuel true s =
        some res → res.1 = true := by
  intro fuel
  induction fuel with
  | zero =>
    intro s res h
    exact Option.noConfusion h
  | succ n ih =>
    intro s res h
    rw [parseListF_succ] at h
    have hb : parseListBody RightK SeparatorK OptionalSep eot cb true s =
        parseListAfterElem RightK SeparatorK OptionalSep eot
          (curT (eatStraySeps SeparatorK s)).loc true
          ((cb (eatStraySeps SeparatorK s)).2) := by
      show parseListAfterElem RightK SeparatorK OptionalSep eot
        (curT (eatStraySeps SeparatorK s)).loc
        (true || (cb (eatStraySeps SeparatorK s)).1)
        ((cb (eatStraySeps SeparatorK s)).2) = _
      rw [Bool.true_or]
    have hflag := parseListAfterElem_flag RightK SeparatorK OptionalSep eot
      (curT (eatStraySeps SeparatorK s)).loc ((cb (eatStraySeps SeparatorK s)).2)
    cases hbody : parseListBody RightK SeparatorK OptionalSep eot cb true s with
    | cont inv' s' =>
      have hinv : inv' = true := hflag.2.2 inv' s' (by rw [← hb]; exact hbody)
      simp only [hbody] at h
      rw [hinv] at h
      exact ih s' res h
    | ret inv' rl s' =>
      have hinv : inv' = true := hflag.2.1 inv' rl s' (by rw [← hb]; exact hbody)
      simp only [hbody] at h
      rw [Option.some.injEq] at h
      rw [← h, hinv]
    | brk inv' s' =>
      have hinv : inv' = true := hflag.1 inv' s' (by rw [← hb]; exact hbody)
      simp only [hbody] at h
      cases hm : parseMatchingToken RightK ErrorDiag LeftLoc s' with
      | none => rw [hm] at h; exact Option.noConfusion h
      | some r =>
        obtain ⟨f, rl, s''⟩ := r
        rw [hm] at h
        rw [Option.some.injEq] at h
        rw [← h, hinv]
        rfl

/-- The sample element callback only ever consumes from the stream. -/
theorem cbOne_suffix : ∀ t : PState, ∃ k, ((cbOne t).2).toks = t.toks.drop k := by
  intro t
  unfold cbOne
  split
  · exact ⟨0, rfl⟩
  · exact ⟨1, by rw [consumeTok_toks, List.drop_one]⟩

/-! ## Claim C3 -/

/-- C3: for a separator-kind within contract and an element callback that can
only consume tokens, (i) every `cont` iteration of `parseList`'s loop strictly
consumes at least one token; (ii) when the iteration made no progress — the
cursor still sits at the recorded start position and neither the close, the
interpolation-`eof` close, nor a separator followed — the iteration invokes
`skipUntil(RightK, SeparatorK)`, and if that lands on `eof` or a
code-completion marker the whole list parse returns failure; (iii) hence the
loop terminates: beyond one fuel unit per remaining token (plus one) the
result no longer changes. -/
theorem parseList_progress_termination (RightK : TokKind) (LeftLoc : Int)
    (SeparatorK : TokKind) (OptionalSep : Bool) (ErrorDiag : DiagMsg)
    (eot : Int → Int) (cb : PState → Bool × PState)
    (hsep : SeparatorK = .comma ∨ SeparatorK = .semi)
    (hcb : ∀ t : PState, ∃ k, ((cb t).2).toks = t.toks.drop k) :
    (∀ invalid : Bool, ∀ s : PState, ∀ inv' : Bool, ∀ s' : PState,
      parseListBody RightK SeparatorK OptionalSep eot cb invalid s = .cont inv' s' →
      s'.toks.length < s.toks.length) ∧
    (∀ invalid : Bool, ∀ s s0 : PState, ∀ cf : Bool, ∀ s1 s2 : PState,
      eatStraySeps SeparatorK s = s0 → cb s0 = (cf, s1) →
      (curT s1).kind ≠ RightK →
      ¬((curT s1).kind = .eof ∧ (curT s1).text = ")") →
      (curT s1).kind ≠ SeparatorK →
      (if OptionalSep then s1
        else diagnose (curT s1).loc (.expected_separator (sepText SeparatorK))
          (some (.insertText (eot s1.prevLoc) (sepText SeparatorK))) s1) = s2 →
      (curT s2).loc = (curT s0).loc →
      (curT (skipUntil RightK SeparatorK false s2)).kind ≠ RightK →
      ((curT (skipUntil RightK SeparatorK false s2)).kind = .eof ∨
        (curT (skipUntil RightK SeparatorK false s2)).kind = .code_complete) →
      parseListBody RightK SeparatorK OptionalSep eot cb invalid s =
        .ret true none (skipUntil RightK SeparatorK false s2)) ∧
    (∀ invalid : Bool, ∀ s : PState, ∀ fuel : Nat, s.toks.length + 1 ≤ fuel →
      parseListF RightK LeftLoc SeparatorK OptionalSep ErrorDiag eot cb fuel invalid s =
      parseListF RightK LeftLoc SeparatorK OptionalSep ErrorDiag eot cb
        (s.toks.length + 1) invalid s) := by
  refine ⟨?_, ?_, ?_⟩
  · intro invalid s inv' s' h
    exact parseListBody_cont_progress RightK SeparatorK OptionalSep eot cb
      hsep hcb invalid s inv' s' h
  · intro invalid s s0 cf s1 s2 hs0 hcbe hkR hkE hkS hs2 hloc hnotR hland
    subst hs0
    subst hs2
    have hb2 : parseListBody RightK SeparatorK OptionalSep eot cb invalid s =
        parseListAfterElem RightK SeparatorK OptionalSep eot
          (curT (eatStraySeps SeparatorK s)).loc (invalid || cf) s1 := by
      show parseListAfterElem RightK SeparatorK OptionalSep eot
        (curT (eatStraySeps SeparatorK s)).loc
        (invalid || (cb (eatStraySeps SeparatorK s)).1)
        ((cb (eatStraySeps SeparatorK s)).2) = _
      rw [hcbe]
    rw [hb2]
    simp only [parseListAfterElem]
    rw [if_neg hkR, if_neg hkE, if_neg hkS, if_pos hloc, if_neg hnotR, if_pos hland]
  · intro invalid s fuel hf
    exact parseListF_stab RightK LeftLoc SeparatorK OptionalSep ErrorDiag eot cb
      hsep hcb s.toks.length s le_rfl invalid fuel hf

/-- C3 witness: the termination clause evaluated at a concrete stream and the
single-token element callback. -/
theorem parseList_progress_termination_witness :
    parseListF .r_paren 0 .comma false (.errorDiag 0) (fun l => l + 1) cbOne 5 false
      ⟨[⟨.identifier, "a", 1, 1⟩, ⟨.r_paren, ")", 2, 1⟩], 0, []⟩ =
    parseListF .r_paren 0 .comma false (.errorDiag 0) (fun l => l + 1) cbOne
      ((⟨[⟨.identifier, "a", 1, 1⟩, ⟨.r_paren, ")", 2, 1⟩], 0, []⟩ : PState).toks.length + 1)
      false ⟨[⟨.identifier, "a", 1, 1⟩, ⟨.r_paren, ")", 2, 1⟩], 0, []⟩ :=
  (parseList_progress_termination .r_paren 0 .comma false (.errorDiag 0) (fun l => l + 1)
    cbOne (Or.inl rfl) cbOne_suffix).2.2 false
    ⟨[⟨.identifier, "a", 1, 1⟩, ⟨.r_paren, ")", 2, 1⟩], 0, []⟩ 5 (by decide)

/-! ## Claim C1 -/

/-- C1 (corrected here, claim refuted below): after the element callback, an
`eof` current token is treated as the list's close — the iteration returns
with `RightLoc` assigned — exactly when its literal text is the fixed
spelling ")" of the string-interpolation re-tokenization boundary, whatever
the list's close-delimiter kind is. -/
theorem parseList_eof_close_iff_rparen_text (RightK SeparatorK : TokKind)
    (OptionalSep : Bool) (eot : Int → Int) (cb : PState → Bool × PState)
    (invalid : Bool) (s s0 : PState) (cf : Bool) (s1 : PState)
    (hsep : SeparatorK = .comma ∨ SeparatorK = .semi)
    (hR : RightK ≠ .eof)
    (hs0 : eatStraySeps SeparatorK s = s0) (hcbe : cb s0 = (cf, s1))
    (heof : (curT s1).kind = .eof) :
    ((∃ inv' : Bool, ∃ l : Int, ∃ s' : PState,
        parseListBody RightK SeparatorK OptionalSep eot cb invalid s =
          .ret inv' (some l) s') ↔ (curT s1).text = ")") ∧
    ((curT s1).text = ")" →
      parseListBody RightK SeparatorK OptionalSep eot cb invalid s =
        .ret (invalid || cf) (some (curT s1).loc) s1) := by
  subst hs0
  have hb2 : parseListBody RightK SeparatorK OptionalSep eot cb invalid s =
      parseListAfterElem RightK SeparatorK OptionalSep eot
        (curT (eatStraySeps SeparatorK s)).loc (invalid || cf) s1 := by
    show parseListAfterElem RightK SeparatorK OptionalSep eot
      (curT (eatStraySeps SeparatorK s)).loc
      (invalid || (cb (eatStraySeps SeparatorK s)).1)
      ((cb (eatStraySeps SeparatorK s)).2) = _
    rw [hcbe]
  have hkR : (curT s1).kind ≠ RightK := by
    rw [heof]; exact fun hx => hR hx.symm
  have hkS : (curT s1).kind ≠ SeparatorK := by
    rw [heof]; rcases hsep with hc | hc <;> (rw [hc]; decide)
  have hsent : ¬(RightK = TokKind.unknown ∧ SeparatorK = TokKind.unknown) := by
    rintro ⟨-, hS⟩
    rcases hsep with hc | hc <;> (rw [hc] at hS; cases hS)
  have hpos : (curT s1).text = ")" →
      parseListBody RightK SeparatorK OptionalSep eot cb invalid s =
        .ret (invalid || cf) (some (curT s1).loc) s1 := by
    intro htext
    rw [hb2]
    simp only [parseListAfterElem]
    rw [if_neg hkR, if_pos ⟨heof, htext⟩]
  refine ⟨⟨?_, fun htext => ⟨invalid || cf, (curT s1).loc, s1, hpos htext⟩⟩, hpos⟩
  rintro ⟨inv', l, s', hret⟩
  by_contra htext
  rw [hb2] at hret
  simp only [parseListAfterElem] at hret
  rw [if_neg hkR,
    if_neg (show ¬((curT s1).kind = .eof ∧ (curT s1).text = ")") from fun hx => htext hx.2),
    if_neg hkS] at hret
  have hs2toks : (if OptionalSep then s1
      else diagnose (curT s1).loc (DiagMsg.expected_separator (sepText SeparatorK))
        (some (FixIt.insertText (eot s1.prevLoc) (sepText SeparatorK))) s1).toks
      = s1.toks := by
    split
    · rfl
    · rw [diagnose_toks]
  have hcur2 := curT_congr hs2toks
  rw [hcur2] at hret
  split at hret
  · next hloc =>
    have hguard : ¬((curT (if OptionalSep then s1
        else diagnose (curT s1).loc (DiagMsg.expected_separator (sepText SeparatorK))
          (some (FixIt.insertText (eot s1.prevLoc) (sepText SeparatorK))) s1)).kind
          ≠ TokKind.eof ∧
        (curT (if OptionalSep then s1
        else diagnose (curT s1).loc (DiagMsg.expected_separator (sepText SeparatorK))
          (some (FixIt.insertText (eot s1.prevLoc) (sepText SeparatorK))) s1)).kind
          ≠ RightK ∧
        (curT (if OptionalSep then s1
        else diagnose (curT s1).loc (DiagMsg.expected_separator (sepText SeparatorK))
          (some (FixIt.insertText (eot s1.prevLoc) (sepText SeparatorK))) s1)).kind
          ≠ SeparatorK ∧
        (false = false ∨ (curT (if OptionalSep then s1
        else diagnose (curT s1).loc (DiagMsg.expected_separator (sepText SeparatorK))
          (some (FixIt.insertText (eot s1.prevLoc) (sepText SeparatorK))) s1)).kind
          ≠ TokKind.code_complete)) := by
      intro hg
      apply hg.1
      rw [hcur2]
      exact heof
    have hstay : skipUntil RightK SeparatorK false (if OptionalSep then s1
        else diagnose (curT s1).loc (DiagMsg.expected_separator (sepText SeparatorK))
          (some (FixIt.insertText (eot s1.prevLoc) (sepText SeparatorK))) s1)
        = (if OptionalSep then s1
        else diagnose (curT s1).loc (DiagMsg.expected_separator (sepText SeparatorK))
          (some (FixIt.insertText (eot s1.prevLoc) (sepText SeparatorK))) s1) := by
      rw [skipUntil_eq, if_neg hsent, if_neg hguard]
    rw [hstay, hcur2] at hret
    rw [if_neg hkR, if_pos (Or.inl heof)] at hret
    rw [IterOut.ret.injEq] at hret
    exact Option.noConfusion hret.2.1
  · next hloc =>
    exact IterOut.noConfusion hret

/-- C1 counterexample: with close kind `}` (`r_brace`), an `eof` token
spelled exactly `"\x7d"` — the close delimiter's own text — is not accepted as
the close (`RightLoc` stays unassigned and the parse fails), while an `eof`
token spelled `")"` is accepted although `")"` is not the text of `}`: the
code compares the `eof` text against the literal `")"`, not against the
current list's close delimiter. -/
theorem parseList_eof_text_close_cex :
    (parseList .r_brace 0 .comma true (.errorDiag 0) (fun l => l + 1) cbOne
        ⟨[⟨.identifier, "a", 10, 1⟩, ⟨.eof, "\x7d", 20, 0⟩], 0, []⟩).map (fun r => r.2.1)
      = some none ∧
    (parseList .r_brace 0 .comma true (.errorDiag 0) (fun l => l + 1) cbOne
        ⟨[⟨.identifier, "a", 10, 1⟩, ⟨.eof, ")", 20, 0⟩], 0, []⟩).map (fun r => r.2.1)
      = some (some 20) ∧
    delimText .r_brace = "\x7d" ∧ (")" : String) ≠ delimText .r_brace := by
  refine ⟨by decide, by decide, rfl, by decide⟩

/-- C1 witness: the amended statement evaluated on a concrete iteration whose
element callback leaves the cursor on the interpolation-boundary `eof`. -/
theorem parseList_eof_close_iff_rparen_text_witness :
    ((∃ inv' : Bool, ∃ l : Int, ∃ s' : PState,
        parseListBody .r_brace .comma true (fun l => l + 1) cbOne false
          ⟨[⟨.identifier, "a", 10, 1⟩, ⟨.eof, ")", 20, 0⟩], 0, []⟩ =
          .ret inv' (some l) s') ↔
      (curT (⟨[⟨.eof, ")", 20, 0⟩], 10, []⟩ : PState)).text = ")") ∧
    ((curT (⟨[⟨.eof, ")", 20, 0⟩], 10, []⟩ : PState)).text = ")" →
      parseListBody .r_brace .comma true (fun l => l + 1) cbOne false
        ⟨[⟨.identifier, "a", 10, 1⟩, ⟨.eof, ")", 20, 0⟩], 0, []⟩ =
        .ret (false || false) (some (curT (⟨[⟨.eof, ")", 20, 0⟩], 10, []⟩ : PState)).loc)
          ⟨[⟨.eof, ")", 20, 0⟩], 10, []⟩) :=
  parseList_eof_close_iff_rparen_text .r_brace .comma true (fun l => l + 1) cbOne false
    ⟨[⟨.identifier, "a", 10, 1⟩, ⟨.eof, ")", 20, 0⟩], 0, []⟩
    ⟨[⟨.identifier, "a", 10, 1⟩, ⟨.eof, ")", 20, 0⟩], 0, []⟩
    false ⟨[⟨.eof, ")", 20, 0⟩], 10, []⟩
    (Or.inl rfl) (by decide) (by decide) (by decide) (by decide)

/-! ## Claim C6 -/

/-- C6: with a mandatory separator, when after an element neither the close
delimiter, nor the interpolation-boundary `eof`-")" close, nor a separator
follows, exactly one diagnostic is appended — `expected_separator` at the
current token, carrying a fix-it inserting the separator's spelling at the
end-of-previous-token location — whatever branch the iteration then takes;
the invalid flag is set and propagates to `parseList`'s final result; and
when the element made progress the loop continues (a `cont` outcome) rather
than aborting. -/
theorem parseList_missing_separator_diag (RightK SeparatorK : TokKind)
    (LeftLoc : Int) (ErrorDiag : DiagMsg) (eot : Int → Int)
    (cb : PState → Bool × PState) (fuel : Nat)
    (invalid : Bool) (s s0 : PState) (cf : Bool) (s1 : PState)
    (hsep : SeparatorK = .comma ∨ SeparatorK = .semi)
    (hs0 : eatStraySeps SeparatorK s = s0) (hcbe : cb s0 = (cf, s1))
    (hkR : (curT s1).kind ≠ RightK)
    (hkE : ¬((curT s1).kind = .eof ∧ (curT s1).text = ")"))
    (hkS : (curT s1).kind ≠ SeparatorK) :
    (∀ b : Bool, ∀ s' : PState,
      parseListBody RightK SeparatorK false eot cb invalid s = .brk b s' →
      b = true ∧ s'.diags = s1.diags ++ [⟨(curT s1).loc,
        .expected_separator (sepText SeparatorK),
        some (.insertText (eot s1.prevLoc) (sepText SeparatorK))⟩]) ∧
    (∀ b : Bool, ∀ rl : Option Int, ∀ s' : PState,
      parseListBody RightK SeparatorK false eot cb invalid s = .ret b rl s' →
      b = true ∧ s'.diags = s1.diags ++ [⟨(curT s1).loc,
        .expected_separator (sepText SeparatorK),
        some (.insertText (eot s1.prevLoc) (sepText SeparatorK))⟩]) ∧
    (∀ b : Bool, ∀ s' : PState,
      parseListBody RightK SeparatorK false eot cb invalid s = .cont b s' →
      b = true ∧ s'.diags = s1.diags ++ [⟨(curT s1).loc,
        .expected_separator (sepText SeparatorK),
        some (.insertText (eot s1.prevLoc) (sepText SeparatorK))⟩]) ∧
    ((curT s1).loc ≠ (curT s0).loc →
      parseListBody RightK SeparatorK false eot cb invalid s =
        .cont true (diagnose (curT s1).loc (.expected_separator (sepText SeparatorK))
          (some (.insertText (eot s1.prevLoc) (sepText SeparatorK))) s1)) ∧
    (∀ res : Bool × Option Int × PState,
      parseListF RightK LeftLoc SeparatorK false ErrorDiag eot cb (fuel + 1) invalid s =
        some res → res.1 = true) := by
  subst hs0
  have hb2 : parseListBody RightK SeparatorK false eot cb invalid s =
      parseListAfterElem RightK SeparatorK false eot
        (curT (eatStraySeps SeparatorK s)).loc (invalid || cf) s1 := by
    show parseListAfterElem RightK SeparatorK false eot
      (curT (eatStraySeps SeparatorK s)).loc
      (invalid || (cb (eatStraySeps SeparatorK s)).1)
      ((cb (eatStraySeps SeparatorK s)).2) = _
    rw [hcbe]
  set dstate := diagnose (curT s1).loc (DiagMsg.expected_separator (sepText SeparatorK))
    (some (FixIt.insertText (eot s1.prevLoc) (sepText SeparatorK))) s1 with hdstate
  set s3t := skipUntil RightK SeparatorK false dstate with hs3t
  have hred : parseListAfterElem RightK SeparatorK false eot
      (curT (eatStraySeps SeparatorK s)).loc (invalid || cf) s1 =
      (if (curT s1).loc = (curT (eatStraySeps SeparatorK s)).loc then
        (if (curT s3t).kind = RightK then .brk true s3t
         else if (curT s3t).kind = .eof ∨ (curT s3t).kind = .code_complete then
           .ret true none s3t
         else .cont true (consumeIfTok SeparatorK s3t))
      else .cont true dstate) := by
    simp only [parseListAfterElem]
    rw [if_neg hkR, if_neg hkE, if_neg hkS]
    rfl
  have hddiags : dstate.diags = s1.diags ++ [⟨(curT s1).loc,
      .expected_separator (sepText SeparatorK),
      some (.insertText (eot s1.prevLoc) (sepText SeparatorK))⟩] := rfl
  have hs3diags : s3t.diags = s1.diags ++ [⟨(curT s1).loc,
      .expected_separator (sepText SeparatorK),
      some (.insertText (eot s1.prevLoc) (sepText SeparatorK))⟩] := by
    rw [hs3t, (skipUntil_suffix RightK SeparatorK false dstate).2, hddiags]
  have hchar : ((curT s1).loc ≠ (curT (eatStraySeps SeparatorK s)).loc ∧
      parseListBody RightK SeparatorK false eot cb invalid s = .cont true dstate) ∨
      ((curT s1).loc = (curT (eatStraySeps SeparatorK s)).loc ∧
        (parseListBody RightK SeparatorK false eot cb invalid s = .brk true s3t ∨
         parseListBody RightK SeparatorK false eot cb invalid s = .ret true none s3t ∨
         parseListBody RightK SeparatorK false eot cb invalid s =
           .cont true (consumeIfTok SeparatorK s3t))) := by
    rw [hb2, hred]
    split
    · next hloc =>
      refine Or.inr ⟨hloc, ?_⟩
      split
      · exact Or.inl rfl
      split
      · exact Or.inr (Or.inl rfl)
      · exact Or.inr (Or.inr rfl)
    · next hloc => exact Or.inl ⟨hloc, rfl⟩
  refine ⟨?_, ?_, ?_, ?_, ?_⟩
  · intro b s' h
    rcases hchar with ⟨-, hc⟩ | ⟨-, hc | hc | hc⟩
    · exact IterOut.noConfusion (h.symm.trans hc)
    · have hx := h.symm.trans hc
      rw [IterOut.brk.injEq] at hx
      refine ⟨hx.1, ?_⟩
      rw [hx.2, hs3diags]
    · exact IterOut.noConfusion (h.symm.trans hc)
    · exact IterOut.noConfusion (h.symm.trans hc)
  · intro b rl s' h
    rcases hchar with ⟨-, hc⟩ | ⟨-, hc | hc | hc⟩
    · exact IterOut.noConfusion (h.symm.trans hc)
    · exact IterOut.noConfusion (h.symm.trans hc)
    · have hx := h.symm.trans hc
      rw [IterOut.ret.injEq] at hx
      refine ⟨hx.1, ?_⟩
      rw [hx.2.2, hs3diags]
    · exact IterOut.noConfusion (h.symm.trans hc)
  · intro b s' h
    rcases hchar with ⟨-, hc⟩ | ⟨-, hc | hc | hc⟩
    · have hx := h.symm.trans hc
      rw [IterOut.cont.injEq] at hx
      refine ⟨hx.1, ?_⟩
      rw [hx.2, hddiags]
    · exact IterOut.noConfusion (h.symm.trans hc)
    · exact IterOut.noConfusion (h.symm.trans hc)
    · have hx := h.symm.trans hc
      rw [IterOut.cont.injEq] at hx
      refine ⟨hx.1, ?_⟩
      rw [hx.2, (consumeIfTok_suffix SeparatorK s3t).2, hs3diags]
  · intro hloc
    rcases hchar with ⟨-, hc⟩ | ⟨heq, -⟩
    · exact hc
    · exact absurd heq hloc
  · intro res h
    rw [parseListF_succ] at h
    rcases hchar with ⟨-, hc⟩ | ⟨-, hc | hc | hc⟩
    · simp only [hc] at h
      exact parseListF_true RightK LeftLoc SeparatorK false ErrorDiag eot cb
        fuel dstate res h
    · simp only [hc] at h
      cases hm : parseMatchingToken RightK ErrorDiag LeftLoc s3t with
      | none => rw [hm] at h; exact Option.noConfusion h
      | some r =>
        obtain ⟨f, rl, s''⟩ := r
        rw [hm] at h
        rw [Option.some.injEq] at h
        rw [← h]
        rfl
    · simp only [hc] at h
      rw [Option.some.injEq] at h
      rw [← h]
    · simp only [hc] at h
      exact parseListF_true RightK LeftLoc SeparatorK false ErrorDiag eot cb
        fuel (consumeIfTok SeparatorK s3t) res h

/-- C6 witness: the missing-separator iteration evaluated on the concrete
stream `b c , d )` (the cursor between `b` and `c` of the spec's
`"a, b c, d"` scenario), with the single-token element callback. -/
theorem parseList_missing_separator_diag_witness :
    parseListBody .r_paren .comma false (fun l => l + 1) cbOne false
        ⟨[⟨.identifier, "b", 4, 1⟩, ⟨.identifier, "c", 6, 1⟩, ⟨.comma, ",", 7, 1⟩,
          ⟨.identifier, "d", 9, 1⟩, ⟨.r_paren, ")", 10, 1⟩], 0, []⟩ =
      .cont true (diagnose
        (curT (⟨[⟨.identifier, "c", 6, 1⟩, ⟨.comma, ",", 7, 1⟩, ⟨.identifier, "d", 9, 1⟩,
          ⟨.r_paren, ")", 10, 1⟩], 4, []⟩ : PState)).loc
        (.expected_separator (sepText .comma))
        (some (.insertText ((fun l => l + 1)
          (⟨[⟨.identifier, "c", 6, 1⟩, ⟨.comma, ",", 7, 1⟩, ⟨.identifier, "d", 9, 1⟩,
            ⟨.r_paren, ")", 10, 1⟩], 4, []⟩ : PState).prevLoc) (sepText .comma)))
        ⟨[⟨.identifier, "c", 6, 1⟩, ⟨.comma, ",", 7, 1⟩, ⟨.identifier, "d", 9, 1⟩,
          ⟨.r_paren, ")", 10, 1⟩], 4, []⟩) :=
  (parseList_missing_separator_diag .r_paren .comma 0 (.errorDiag 0) (fun l => l + 1)
    cbOne 7 false
    ⟨[⟨.identifier, "b", 4, 1⟩, ⟨.identifier, "c", 6, 1⟩, ⟨.comma, ",", 7, 1⟩,
      ⟨.identifier, "d", 9, 1⟩, ⟨.r_paren, ")", 10, 1⟩], 0, []⟩
    (eatStraySeps .comma ⟨[⟨.identifier, "b", 4, 1⟩, ⟨.identifier, "c", 6, 1⟩,
      ⟨.comma, ",", 7, 1⟩, ⟨.identifier, "d", 9, 1⟩, ⟨.r_paren, ")", 10, 1⟩], 0, []⟩)
    false
    ⟨[⟨.identifier, "c", 6, 1⟩, ⟨.comma, ",", 7, 1⟩, ⟨.identifier, "d", 9, 1⟩,
      ⟨.r_paren, ")", 10, 1⟩], 4, []⟩
    (Or.inl rfl) rfl (by decide) (by decide) (by decide) (by decide)).2.2.2.1 (by decide)

/-! ## Claim C7 -/

theorem getStringPartTokensGo_spec (locOffset : Int → Nat)
    (tokenizeRange : Nat → Nat → List Token) (textAt : Int → Nat → String) (e : Nat) :
    ∀ (rest : List StringSegment) (i : Nat),
      getStringPartTokensGo locOffset tokenizeRange textAt e i rest =
      (List.enumFrom i rest).flatMap (fun p =>
        match p.2.kind with
        | SegKind.literal => [literalPartToken textAt (p.1 = 0) (p.1 = e - 1) p.2]
        | SegKind.interpolated =>
          tokenizeRange (locOffset p.2.loc) (locOffset p.2.loc + p.2.length)) := by
  intro rest
  induction rest with
  | nil => intro i; rfl
  | cons seg rest ih =>
    intro i
    rw [List.enumFrom_cons, List.flatMap_cons]
    show (match seg.kind with
      | SegKind.literal =>
        [⟨.string_literal,
          textAt (if i = 0 then seg.loc - 1 else seg.loc)
            (seg.length + (if i = 0 then 1 else 0) + (if i = e - 1 then 1 else 0)),
          if i = 0 then seg.loc - 1 else seg.loc,
          seg.length + (if i = 0 then 1 else 0) + (if i = e - 1 then 1 else 0)⟩]
      | SegKind.interpolated =>
        tokenizeRange (locOffset seg.loc) (locOffset seg.loc + seg.length))
      ++ getStringPartTokensGo locOffset tokenizeRange textAt e (i + 1) rest = _
    rw [ih (i + 1)]
    congr 1

/-- C7: every literal segment of a split string literal becomes exactly one
synthesized string-literal token; the first segment's start is moved back by
one character and its length grown by one to include the leading quote, the
last segment's length grows by one for the trailing quote, and a sole
segment (no interpolation) receives both extensions — while interpolated
segments are replaced by the recursive tokenization of their exact
sub-range. -/
theorem getStringPartTokens_quote_extension (locOffset : Int → Nat)
    (tokenizeRange : Nat → Nat → List Token) (textAt : Int → Nat → String)
    (segs : List StringSegment) :
    getStringPartTokens locOffset tokenizeRange textAt segs =
    segs.enum.flatMap (fun p =>
      match p.2.kind with
      | SegKind.literal => [literalPartToken textAt (p.1 = 0) (p.1 = segs.length - 1) p.2]
      | SegKind.interpolated =>
        tokenizeRange (locOffset p.2.loc) (locOffset p.2.loc + p.2.length)) := by
  unfold getStringPartTokens
  rw [getStringPartTokensGo_spec]
  rfl

/-! ## Claim C8 -/

theorem getStringPartTokens_mem (locOffset : Int → Nat)
    (tokenizeRange : Nat → Nat → List Token) (textAt : Int → Nat → String) (e : Nat) :
    ∀ (rest : List StringSegment) (i : Nat) (t : Token),
      t ∈ getStringPartTokensGo locOffset tokenizeRange textAt e i rest →
      t.kind = .string_literal ∨ ∃ o en, t ∈ tokenizeRange o en := by
  intro rest
  induction rest with
  | nil =>
    intro i t ht
    exact absurd ht (List.not_mem_nil t)
  | cons seg rest ih =>
    intro i t ht
    simp only [getStringPartTokensGo] at ht
    rw [List.mem_append] at ht
    rcases ht with ht | ht
    · cases hk : seg.kind
      · simp only [hk] at ht
        rw [List.mem_singleton] at ht
        rw [ht]
        exact Or.inl rfl
      · simp only [hk] at ht
        exact Or.inr ⟨locOffset seg.loc, locOffset seg.loc + seg.length, ht⟩
    · exact ih (i + 1) t ht

/-- C8: `tokenize` called with both offsets zero tokenizes the whole buffer
(the end offset defaults to the buffer's size), and for every call the
returned sequence contains no `eof` token — the terminating `eof` of every
(re-)tokenization run is removed, literal string parts are synthesized as
string-literal tokens, and the lexer never produces `eof` before its
terminator. -/
theorem tokenize_whole_buffer_no_eof (bufSize : Nat) (lex : Nat → Nat → Bool → List Token)
    (segsOf : Token → List StringSegment) (locOffset : Int → Nat)
    (textAt : Int → Nat → String)
    (hlex : ∀ (o e : Nat) (k : Bool), ∀ t ∈ lex o e k, t.kind ≠ TokKind.eof) :
    (∀ (fuel : Nat) (keep sp : Bool),
      tokenizeF bufSize lex segsOf locOffset textAt fuel 0 0 keep sp =
      tokenizeF bufSize lex segsOf locOffset textAt fuel 0 bufSize keep sp) ∧
    (∀ (fuel off endOff : Nat) (keep sp : Bool),
      ∀ t ∈ tokenizeF bufSize lex segsOf locOffset textAt fuel off endOff keep sp,
        t.kind ≠ TokKind.eof) := by
  constructor
  · intro fuel keep sp
    cases fuel with
    | zero => rfl
    | succ n =>
      have hstop : (if (0 : Nat) = 0 ∧ (0 : Nat) = 0 then bufSize else 0) =
          (if (0 : Nat) = 0 ∧ bufSize = 0 then bufSize else bufSize) := by
        rw [if_pos ⟨rfl, rfl⟩]
        by_cases h : bufSize = 0
        · rw [if_pos ⟨rfl, h⟩]
        · rw [if_neg (fun hx => h hx.2)]
      show (lex 0 (if (0 : Nat) = 0 ∧ (0 : Nat) = 0 then bufSize else 0) keep).flatMap _ = _
      rw [hstop]
      rfl
  · intro fuel
    induction fuel with
    | zero =>
      intro off endOff keep sp t ht
      exact absurd ht (List.not_mem_nil t)
    | succ n ih =>
      intro off endOff keep sp t ht
      have ht' : t ∈ (lex off (if off = 0 ∧ endOff = 0 then bufSize else endOff) keep).flatMap
          (fun u => if u.kind = .string_literal ∧ sp then
            getStringPartTokens locOffset
              (fun o e => tokenizeF bufSize lex segsOf locOffset textAt n o e true true)
              textAt (segsOf u)
          else [u]) := ht
      rw [List.mem_flatMap] at ht'
      obtain ⟨u, hu, htu⟩ := ht'
      by_cases hsl : u.kind = .string_literal ∧ sp = true
      · rw [if_pos hsl] at htu
        rcases getStringPartTokens_mem locOffset _ textAt (segsOf u).length
            (segsOf u) 0 t htu with hlit | ⟨o, en, hto⟩
        · rw [hlit]; decide
        · exact ih o en true true t hto
      · rw [if_neg hsl] at htu
        rw [List.mem_singleton] at htu
        rw [htu]
        exact hlex off _ keep u hu

/-- C8 witness: the whole-buffer default and `eof`-freedom evaluated with a
concrete one-token lexer. -/
theorem tokenize_whole_buffer_no_eof_witness :
    tokenizeF 7 (fun _ _ _ => [⟨.identifier, "x", 0, 1⟩]) (fun _ => []) (fun _ => 0)
      (fun _ _ => "") 2 0 0 true true =
    tokenizeF 7 (fun _ _ _ => [⟨.identifier, "x", 0, 1⟩]) (fun _ => []) (fun _ => 0)
      (fun _ _ => "") 2 0 7 true true :=
  (tokenize_whole_buffer_no_eof 7 (fun _ _ _ => [⟨.identifier, "x", 0, 1⟩]) (fun _ => [])
    (fun _ => 0) (fun _ _ => "")
    (fun o e k t ht => by
      rw [List.mem_singleton] at ht
      rw [ht]
      decide)).1 2 true true

/-! ## Claim C9 -/

/-- C9: `consumeToken` requires the current token not to be `eof` — consuming
past end of input is the fatal assertion `"Lexing past eof!"`, modelled as
`none`, not a recoverable diagnostic — and under that precondition it returns
the current token's location, advances the lexer by one token, and records
the consumed token's location as the previous-token location. -/
theorem consumeToken_spec (s : PState) :
    ((curT s).kind ≠ .eof →
      consumeToken s = some ((curT s).loc,
        ⟨s.toks.tail, (curT s).loc, s.diags⟩)) ∧
    ((curT s).kind = .eof → consumeToken s = none) := by
  constructor
  · intro h
    unfold consumeToken
    rw [if_neg h]
    rfl
  · intro h
    unfold consumeToken
    rw [if_pos h]

/-- C9 witness: consuming a concrete identifier token, and the fault at a
concrete `eof`. -/
theorem consumeToken_spec_witness :
    consumeToken ⟨[⟨.identifier, "a", 3, 1⟩, ⟨.eof, "", 4, 0⟩], 0, []⟩ =
      some (3, ⟨[⟨.eof, "", 4, 0⟩], 3, []⟩) ∧
    consumeToken ⟨[⟨.eof, "", 4, 0⟩], 3, []⟩ = none :=
  ⟨(consumeToken_spec ⟨[⟨.identifier, "a", 3, 1⟩, ⟨.eof, "", 4, 0⟩], 0, []⟩).1 (by decide),
   (consumeToken_spec ⟨[⟨.eof, "", 4, 0⟩], 3, []⟩).2 (by decide)⟩

/-! ## Claim C10 -/

/-- C10: constructing a parser always takes the saved cursor position out of
the persistent state — afterwards the state holds no saved position — and
the taken position seeds the parser's start exactly when it exists and the
location-mapping service places it in this parser's buffer; otherwise it is
discarded and the parser starts from the beginning of the buffer. -/
theorem parserCtor_takes_position (bufferID : Int) (findBuffer : Int → Int)
    (st : PersistentParserState) :
    ((parserCtor bufferID findBuffer st).1.parserPos = none) ∧
    (∀ p : PPos, st.parserPos = some p → findBuffer p.loc = bufferID →
      (parserCtor bufferID findBuffer st).2 = .restored p) ∧
    (∀ p : PPos, st.parserPos = some p → findBuffer p.loc ≠ bufferID →
      (parserCtor bufferID findBuffer st).2 = .fromStart) ∧
    (st.parserPos = none → (parserCtor bufferID findBuffer st).2 = .fromStart) := by
  refine ⟨?_, ?_, ?_, ?_⟩
  · unfold parserCtor takeParserPosition
    cases hp : st.parserPos with
    | some p =>
      simp only [hp]
      split
      · rfl
      · rfl
    | none => simp only [hp]
  · intro p hp hf
    unfold parserCtor takeParserPosition
    simp only [hp]
    rw [if_pos hf]
  · intro p hp hf
    unfold parserCtor takeParserPosition
    simp only [hp]
    rw [if_neg hf]
  · intro hp
    unfold parserCtor takeParserPosition
    simp only [hp]

/-- C10 witness: a concrete saved position in a matching buffer is restored
and cleared, a non-matching one is discarded and cleared. -/
theorem parserCtor_takes_position_witness :
    ((parserCtor 1 (fun _ => 1) ⟨some ⟨42⟩⟩).1.parserPos = none) ∧
    (parserCtor 1 (fun _ => 1) ⟨some ⟨42⟩⟩).2 = .restored ⟨42⟩ ∧
    (parserCtor 1 (fun _ => 2) ⟨some ⟨42⟩⟩).2 = .fromStart :=
  ⟨(parserCtor_takes_position 1 (fun _ => 1) ⟨some ⟨42⟩⟩).1,
   (parserCtor_takes_position 1 (fun _ => 1) ⟨some ⟨42⟩⟩).2.1 ⟨42⟩ rfl rfl,
   (parserCtor_takes_position 1 (fun _ => 2) ⟨some ⟨42⟩⟩).2.2.1 ⟨42⟩ rfl (by decide)⟩

/-! ## Claim C2 -/

/-- C2 (the code contradicts the claim): with a completion factory the
delayed-body sub-parser gets a fresh callback installed before parsing and
exactly one `doneParsing` after; but with no factory present,
`ParseDelayedFunctionBodies::parseFunctionBody` still executes
`CodeCompletion->doneParsing()` after parsing — invoking `doneParsing`
through the null `unique_ptr` — while the top-level path merely asserts the
factory is present. -/
theorem parseFunctionBody_null_doneParsing :
    parseFunctionBodyEvents true =
      [.createCallbacks, .setCallbacks, .parseBody, .doneParsingOn false] ∧
    (parseFunctionBodyEvents true).count (.doneParsingOn false) = 1 ∧
    parseFunctionBodyEvents false = [.parseBody, .doneParsingOn true] ∧
    DelayedParseEvent.doneParsingOn true ∈ parseFunctionBodyEvents false ∧
    parseDelayedTopLevelDeclEvents false true = none ∧
    parseDelayedTopLevelDeclEvents true true =
      some [.createCallbacks, .setCallbacks, .parseTopLevel, .doneParsingOn false] := by
  refine ⟨rfl, by decide, rfl, by decide, rfl, rfl⟩

end SwiftParse
